import Mathlib

/-!
Verification of the World Map graph model of the `python-tycoon` engine.

The repository contains two near-duplicate implementations:
* `tycoon_engine/entities/world_map.py` (the "entities" variant, modelled in
  namespace `Entities` below): nodes/edges are dataclass records, the map is a
  factory, and `find_path` (BFS) lives here;
* `tycoon_engine/systems/world_map.py` (the "systems" variant, namespace
  `Systems`): nodes cache their incident-edge ids and edges carry a
  `current_flow` accumulator with capacity bookkeeping.

Python dictionaries are modelled as association lists in insertion order
(`Tycoon.Dict`); Python floats are modelled as rationals; the open-ended
"properties" value type is a type parameter `α`.
-/

namespace Tycoon

/-- A Python `dict` keyed by strings, as an association list in insertion
order.  Real dictionaries have unique keys; lemmas that need that carry a
`Nodup` hypothesis on the key list. -/
abbrev Dict (τ : Type) := List (String × τ)

/-- Python `k in d`. -/
def dmem {τ : Type} (d : Dict τ) (k : String) : Bool :=
  d.any (fun p => p.1 = k)

/-- Python `d.get(k)` / `d[k]` lookup: the first entry with key `k`. -/
def dget {τ : Type} (d : Dict τ) (k : String) : Option τ :=
  match d with
  | [] => none
  | p :: rest => if p.1 = k then some p.2 else dget rest k

/-- Python `d[k] = v`: replace in place if the key is present, else append
(dict assignment keeps the position of an existing key). -/
def dinsert {τ : Type} (d : Dict τ) (k : String) (v : τ) : Dict τ :=
  if dmem d k then d.map (fun p => if p.1 = k then (p.1, v) else p)
  else d ++ [(k, v)]

/-- Python `del d[k]` (on unique keys, dropping every entry with key `k`). -/
def derase {τ : Type} (d : Dict τ) (k : String) : Dict τ :=
  d.filter (fun p => decide (p.1 ≠ k))

/-- Mutation of the value stored at key `k` (no-op when `k` is absent). -/
def dupdate {τ : Type} (d : Dict τ) (k : String) (f : τ → τ) : Dict τ :=
  d.map (fun p => if p.1 = k then (p.1, f p.2) else p)

/-- Python `d.values()`, in insertion order. -/
def dvalues {τ : Type} (d : Dict τ) : List τ :=
  d.map Prod.snd

/-- A sequence of Python assignments `d[k] = v`, one per entry of `l`. -/
def dassign {τ : Type} (d : Dict τ) (l : List (String × τ)) : Dict τ :=
  l.foldl (fun acc p => dinsert acc p.1 p.2) d

theorem dmem_iff_exists {τ : Type} (d : Dict τ) (k : String) :
    dmem d k = true ↔ ∃ p ∈ d, p.1 = k := by
  simp [dmem, List.any_eq_true]

theorem dget_isSome_iff {τ : Type} (d : Dict τ) (k : String) :
    (dget d k).isSome = dmem d k := by
  induction d with
  | nil => simp [dget, dmem]
  | cons p rest ih =>
    by_cases h : p.1 = k <;> simp [dget, dmem, h] at ih ⊢
    · exact ih

theorem dget_mem {τ : Type} {d : Dict τ} {k : String} {v : τ}
    (h : dget d k = some v) : (k, v) ∈ d := by
  induction d with
  | nil => simp [dget] at h
  | cons p rest ih =>
    by_cases hp : p.1 = k
    · simp [dget, hp] at h
      subst hp h
      exact List.mem_cons_self _ _
    · simp [dget, hp] at h
      exact List.mem_cons_of_mem _ (ih h)

theorem mem_derase {τ : Type} {d : Dict τ} {k : String} {p : String × τ} :
    p ∈ derase d k ↔ p ∈ d ∧ p.1 ≠ k := by
  simp [derase, List.mem_filter]

theorem dget_derase_self {τ : Type} (d : Dict τ) (k : String) :
    dget (derase d k) k = none := by
  induction d with
  | nil => rfl
  | cons p rest ih =>
    by_cases hp : p.1 = k
    · rw [show derase (p :: rest) k = derase rest k by simp [derase, hp]]
      exact ih
    · rw [show derase (p :: rest) k = p :: derase rest k by simp [derase, hp]]
      simp [dget, hp, ih]

theorem dget_derase_ne {τ : Type} (d : Dict τ) (k x : String) (hx : x ≠ k) :
    dget (derase d k) x = dget d x := by
  induction d with
  | nil => rfl
  | cons p rest ih =>
    by_cases hp : p.1 = k
    · have hpx : ¬ p.1 = x := fun h => hx (h ▸ hp)
      rw [show derase (p :: rest) k = derase rest k by simp [derase, hp]]
      rw [ih]
      simp [dget, hpx]
    · rw [show derase (p :: rest) k = p :: derase rest k by simp [derase, hp]]
      by_cases hpx : p.1 = x
      · simp [dget, hpx]
      · simp [dget, hpx, ih]

theorem dmem_derase {τ : Type} (d : Dict τ) (k x : String) (hx : x ≠ k) :
    dmem (derase d k) x = dmem d x := by
  rw [← dget_isSome_iff, ← dget_isSome_iff, dget_derase_ne d k x hx]

theorem dget_append_of_isSome {τ : Type} (d d' : Dict τ) (k : String)
    (h : (dget d k).isSome = true) : dget (d ++ d') k = dget d k := by
  induction d with
  | nil => simp [dget] at h
  | cons p rest ih =>
    by_cases hp : p.1 = k
    · simp [dget, hp]
    · simp only [dget, if_neg hp] at h ⊢
      exact ih h

theorem dget_append_of_none {τ : Type} (d d' : Dict τ) (k : String)
    (h : dget d k = none) : dget (d ++ d') k = dget d' k := by
  induction d with
  | nil => simp
  | cons p rest ih =>
    by_cases hp : p.1 = k
    · simp [dget, hp] at h
    · simp only [dget, if_neg hp] at h
      simpa [dget, hp] using ih h

theorem dget_none_of_dmem_false {τ : Type} {d : Dict τ} {k : String}
    (h : dmem d k = false) : dget d k = none := by
  cases hg : dget d k with
  | none => rfl
  | some v =>
    have := dget_isSome_iff d k
    rw [hg, h] at this
    simp at this

theorem dget_mapreplace_self {τ : Type} (d : Dict τ) (k : String) (v : τ)
    (hm : dmem d k = true) :
    dget (d.map (fun p => if p.1 = k then (p.1, v) else p)) k = some v := by
  induction d with
  | nil => simp [dmem] at hm
  | cons p rest ih =>
    by_cases hp : p.1 = k
    · rw [List.map_cons, if_pos hp]
      simp [dget, hp]
    · have hm' : dmem rest k = true := by
        simpa [dmem, hp] using hm
      rw [List.map_cons, if_neg hp]
      simp only [dget, if_neg hp]
      exact ih hm'

theorem dget_mapreplace_ne {τ : Type} (d : Dict τ) (k x : String) (v : τ)
    (hx : x ≠ k) :
    dget (d.map (fun p => if p.1 = k then (p.1, v) else p)) x = dget d x := by
  induction d with
  | nil => rfl
  | cons p rest ih =>
    by_cases hp : p.1 = k
    · have hpx : ¬ p.1 = x := fun h => hx (h ▸ hp)
      rw [List.map_cons, if_pos hp]
      simp only [dget, if_neg hpx]
      exact ih
    · rw [List.map_cons, if_neg hp]
      by_cases hpx : p.1 = x
      · simp [dget, hpx]
      · simp only [dget, if_neg hpx]
        exact ih

theorem dget_dinsert_self {τ : Type} (d : Dict τ) (k : String) (v : τ) :
    dget (dinsert d k v) k = some v := by
  unfold dinsert
  by_cases hm : dmem d k
  · rw [if_pos hm]
    exact dget_mapreplace_self d k v hm
  · rw [if_neg hm]
    rw [dget_append_of_none d [(k, v)] k
      (dget_none_of_dmem_false (Bool.eq_false_iff.mpr hm))]
    simp [dget]

theorem dget_dinsert_ne {τ : Type} (d : Dict τ) (k x : String) (v : τ) (hx : x ≠ k) :
    dget (dinsert d k v) x = dget d x := by
  unfold dinsert
  by_cases hm : dmem d k
  · rw [if_pos hm]
    exact dget_mapreplace_ne d k x v hx
  · rw [if_neg hm]
    cases hg : dget d x with
    | some w => rw [dget_append_of_isSome d [(k, v)] x (by rw [hg]; rfl), hg]
    | none =>
      have hkx : ¬ k = x := fun h => hx h.symm
      rw [dget_append_of_none d [(k, v)] x hg]
      simp [dget, hkx]

theorem dget_dupdate_self {τ : Type} (d : Dict τ) (k : String) (f : τ → τ) :
    dget (dupdate d k f) k = (dget d k).map f := by
  induction d with
  | nil => rfl
  | cons p rest ih =>
    by_cases hp : p.1 = k
    · rw [dupdate, List.map_cons, if_pos hp]
      simp [dget, hp]
    · rw [dupdate, List.map_cons, if_neg hp]
      simp only [dget, if_neg hp]
      exact ih

theorem dget_dupdate_ne {τ : Type} (d : Dict τ) (k x : String) (f : τ → τ)
    (hx : x ≠ k) : dget (dupdate d k f) x = dget d x := by
  induction d with
  | nil => rfl
  | cons p rest ih =>
    by_cases hp : p.1 = k
    · have hpx : ¬ p.1 = x := fun h => hx (h ▸ hp)
      rw [dupdate, List.map_cons, if_pos hp]
      simp only [dget, if_neg hpx]
      exact ih
    · rw [dupdate, List.map_cons, if_neg hp]
      by_cases hpx : p.1 = x
      · simp [dget, hpx]
      · simp only [dget, if_neg hpx]
        exact ih

theorem keys_dupdate {τ : Type} (d : Dict τ) (k : String) (f : τ → τ) :
    (dupdate d k f).map Prod.fst = d.map Prod.fst := by
  induction d with
  | nil => rfl
  | cons p rest ih =>
    by_cases hp : p.1 = k <;> simp [dupdate, hp] at ih ⊢ <;> exact ih

theorem dmem_dupdate {τ : Type} (d : Dict τ) (k x : String) (f : τ → τ) :
    dmem (dupdate d k f) x = dmem d x := by
  rw [← dget_isSome_iff, ← dget_isSome_iff]
  by_cases hx : x = k
  · subst hx
    rw [dget_dupdate_self]
    cases dget d x <;> rfl
  · rw [dget_dupdate_ne d k x f hx]

theorem keys_dinsert_of_dmem {τ : Type} (d : Dict τ) (k : String) (v : τ)
    (hm : dmem d k = true) : (dinsert d k v).map Prod.fst = d.map Prod.fst := by
  rw [dinsert, if_pos hm, List.map_map]
  congr 1
  funext p
  by_cases hp : p.1 = k <;> simp [hp]

theorem keys_dinsert_of_not_dmem {τ : Type} (d : Dict τ) (k : String) (v : τ)
    (hm : dmem d k = false) :
    (dinsert d k v).map Prod.fst = d.map Prod.fst ++ [k] := by
  rw [dinsert, if_neg (by simp [hm])]
  simp

theorem keys_derase_sublist {τ : Type} (d : Dict τ) (k : String) :
    ((derase d k).map Prod.fst).Sublist (d.map Prod.fst) :=
  (List.filter_sublist d).map Prod.fst

theorem dmem_false_iff {τ : Type} (d : Dict τ) (k : String) :
    dmem d k = false ↔ k ∉ d.map Prod.fst := by
  constructor
  · intro h hk
    rcases List.mem_map.mp hk with ⟨p, hp, hfst⟩
    rw [Bool.eq_false_iff] at h
    exact h (dmem_iff_exists d k |>.mpr ⟨p, hp, hfst⟩)
  · intro h
    rw [Bool.eq_false_iff]
    intro hm
    rcases (dmem_iff_exists d k).mp hm with ⟨p, hp, hfst⟩
    exact h (List.mem_map.mpr ⟨p, hp, hfst⟩)

theorem dmem_dinsert {τ : Type} (d : Dict τ) (k x : String) (v : τ) :
    dmem (dinsert d k v) x = (dmem d x || decide (x = k)) := by
  by_cases hx : x = k
  · subst hx
    rw [← dget_isSome_iff, dget_dinsert_self]
    simp
  · rw [← dget_isSome_iff, dget_dinsert_ne d k x v hx, dget_isSome_iff]
    simp [hx]

theorem dmem_append {τ : Type} (d1 d2 : Dict τ) (k : String) :
    dmem (d1 ++ d2) k = (dmem d1 k || dmem d2 k) := by
  simp [dmem, List.any_append]

theorem dassign_eq_append {τ : Type} :
    ∀ (l : List (String × τ)) (d : Dict τ), (l.map Prod.fst).Nodup →
    (∀ k ∈ l.map Prod.fst, dmem d k = false) → dassign d l = d ++ l := by
  intro l
  induction l with
  | nil => intro d _ _; simp [dassign]
  | cons p rest ih =>
    intro d hnd hdis
    have hdp : dmem d p.1 = false := hdis p.1 (by simp)
    have hstep : dinsert d p.1 p.2 = d ++ [p] := by
      rw [dinsert, if_neg (by simp [hdp])]
    have hnd' : (rest.map Prod.fst).Nodup := by
      rw [List.map_cons] at hnd
      exact (List.nodup_cons.mp hnd).2
    have hhead : p.1 ∉ rest.map Prod.fst := by
      rw [List.map_cons] at hnd
      exact (List.nodup_cons.mp hnd).1
    have hdis' : ∀ k ∈ rest.map Prod.fst, dmem (d ++ [p]) k = false := by
      intro k hk
      rw [dmem_append]
      have h1 : dmem d k = false := hdis k (List.mem_cons_of_mem _ hk)
      have h2 : dmem [p] k = false := by
        have : ¬ p.1 = k := fun h => hhead (h ▸ hk)
        simp [dmem, this]
      rw [h1, h2]
      rfl
    show dassign (dinsert d p.1 p.2) rest = d ++ p :: rest
    rw [hstep, ih (d ++ [p]) hnd' hdis']
    simp

theorem dassign_nil {τ : Type} (l : List (String × τ)) (hnd : (l.map Prod.fst).Nodup) :
    dassign [] l = l := by
  rw [dassign_eq_append l [] hnd (fun k _ => rfl)]
  rfl

theorem mem_iff_dget {τ : Type} {d : Dict τ} (hnd : (d.map Prod.fst).Nodup)
    (p : String × τ) : p ∈ d ↔ dget d p.1 = some p.2 := by
  constructor
  · intro hp
    induction d with
    | nil => simp at hp
    | cons q rest ih =>
      rcases List.mem_cons.mp hp with h | h
      · rw [← h]
        simp [dget]
      · have hq : q.1 ∉ rest.map Prod.fst := by
          rw [List.map_cons] at hnd
          exact (List.nodup_cons.mp hnd).1
        have hne : ¬ q.1 = p.1 := by
          intro he
          exact hq (he ▸ List.mem_map.mpr ⟨p, h, rfl⟩)
        simp only [dget, if_neg hne]
        exact ih (by rw [List.map_cons] at hnd; exact (List.nodup_cons.mp hnd).2) h
  · intro h
    exact dget_mem h

end Tycoon

namespace Entities

/-- `entities/world_map.py` `Node` dataclass. -/
structure Node (α : Type) where
  node_id : String
  x : ℚ
  y : ℚ
  name : Option String
  properties : Tycoon.Dict α
deriving DecidableEq

/-- `entities/world_map.py` `Edge` dataclass. -/
structure Edge (α : Type) where
  edge_id : String
  from_node : String
  to_node : String
  throughput : ℚ
  bidirectional : Bool
  properties : Tycoon.Dict α
deriving DecidableEq

/-- `Edge.connects`. -/
def Edge.connects {α : Type} (e : Edge α) (node_id : String) : Bool :=
  node_id = e.from_node ∨ node_id = e.to_node

/-- `Edge.other_node`: the other endpoint, or `None` when `node_id` is not an
endpoint, or when it is the `to` endpoint of a unidirectional edge. -/
def Edge.other_node {α : Type} (e : Edge α) (node_id : String) : Option String :=
  if node_id = e.from_node then some e.to_node
  else if node_id = e.to_node ∧ e.bidirectional = true then some e.from_node
  else none

/-- `entities/world_map.py` `WorldMap`: node and edge dictionaries plus the
auto-increment id counters. -/
structure WorldMap (α : Type) where
  nodes : Tycoon.Dict (Node α)
  edges : Tycoon.Dict (Edge α)
  next_node_id : Nat
  next_edge_id : Nat
deriving DecidableEq

/-- `WorldMap.__init__`. -/
def WorldMap.empty (α : Type) : WorldMap α := ⟨[], [], 0, 0⟩

/-- `WorldMap.add_node`: inserts (overwriting any node stored under the same
id) and returns the created node; a missing `node_id` argument draws from the
counter via `generate_node_id`. -/
def WorldMap.add_node {α : Type} (m : WorldMap α) (x y : ℚ) (name : Option String)
    (node_id : Option String) (properties : Tycoon.Dict α) : Node α × WorldMap α :=
  match node_id with
  | some nid =>
      let node : Node α := ⟨nid, x, y, name, properties⟩
      (node, { m with nodes := Tycoon.dinsert m.nodes nid node })
  | none =>
      let nid := "node_" ++ toString m.next_node_id
      let node : Node α := ⟨nid, x, y, name, properties⟩
      (node, { m with nodes := Tycoon.dinsert m.nodes nid node,
                      next_node_id := m.next_node_id + 1 })

/-- `WorldMap.remove_node`: cascades to every edge connecting the node. -/
def WorldMap.remove_node {α : Type} (m : WorldMap α) (node_id : String) :
    Bool × WorldMap α :=
  if Tycoon.dmem m.nodes node_id then
    let edges_to_remove := (m.edges.filter (fun p => p.2.connects node_id)).map Prod.fst
    let edges := edges_to_remove.foldl (fun es eid => Tycoon.derase es eid) m.edges
    (true, { m with nodes := Tycoon.derase m.nodes node_id, edges := edges })
  else (false, m)

/-- `WorldMap.get_node`. -/
def WorldMap.get_node {α : Type} (m : WorldMap α) (node_id : String) : Option (Node α) :=
  Tycoon.dget m.nodes node_id

/-- `WorldMap.add_edge`: validates that both endpoints exist, then inserts
(overwriting any edge stored under the same id). -/
def WorldMap.add_edge {α : Type} (m : WorldMap α) (from_node to_node : String)
    (throughput : ℚ) (bidirectional : Bool) (edge_id : Option String)
    (properties : Tycoon.Dict α) : Option (Edge α) × WorldMap α :=
  if ¬ Tycoon.dmem m.nodes from_node ∨ ¬ Tycoon.dmem m.nodes to_node then (none, m)
  else
    match edge_id with
    | some eid =>
        let edge : Edge α := ⟨eid, from_node, to_node, throughput, bidirectional, properties⟩
        (some edge, { m with edges := Tycoon.dinsert m.edges eid edge })
    | none =>
        let eid := "edge_" ++ toString m.next_edge_id
        let edge : Edge α := ⟨eid, from_node, to_node, throughput, bidirectional, properties⟩
        (some edge, { m with edges := Tycoon.dinsert m.edges eid edge,
                             next_edge_id := m.next_edge_id + 1 })

/-- `WorldMap.remove_edge`. -/
def WorldMap.remove_edge {α : Type} (m : WorldMap α) (edge_id : String) :
    Bool × WorldMap α :=
  if Tycoon.dmem m.edges edge_id then
    (true, { m with edges := Tycoon.derase m.edges edge_id })
  else (false, m)

/-- `WorldMap.get_all_edges`. -/
def WorldMap.get_all_edges {α : Type} (m : WorldMap α) : List (Edge α) :=
  Tycoon.dvalues m.edges

/-- `WorldMap.get_node_edges`. -/
def WorldMap.get_node_edges {α : Type} (m : WorldMap α) (node_id : String) :
    List (Edge α) :=
  (Tycoon.dvalues m.edges).filter (fun e => e.connects node_id)

/-- `WorldMap.get_neighbors`: `(other, edge)` for every edge whose
`other_node` result is truthy — a Python `Optional[str]` is truthy exactly
when it is neither `None` nor the empty string. -/
def WorldMap.get_neighbors {α : Type} (m : WorldMap α) (node_id : String) :
    List (String × Edge α) :=
  (Tycoon.dvalues m.edges).filterMap (fun e =>
    match e.other_node node_id with
    | some other => if other = "" then none else some (other, e)
    | none => none)

/-- `WorldMap.clear`. -/
def WorldMap.clear {α : Type} (m : WorldMap α) : WorldMap α :=
  { m with nodes := [], edges := [] }

/-- The dictionary produced by `entities` `Node.to_dict` / consumed by
`Node.from_dict`.  Each field is `Option` so that a record missing a key can
be represented; `name` mirrors `data.get('name')`, which conflates an absent
key with a stored `None`. -/
structure NodeRecord (α : Type) where
  node_id : Option String
  x : Option ℚ
  y : Option ℚ
  name : Option String
  properties : Option (Tycoon.Dict α)
deriving DecidableEq

/-- `Node.to_dict`. -/
def Node.to_dict {α : Type} (n : Node α) : NodeRecord α :=
  ⟨some n.node_id, some n.x, some n.y, n.name, some n.properties⟩

/-- `Node.from_dict`: `data['node_id']`, `data['x']`, `data['y']` raise on a
missing key (modelled as `none`); `name` and `properties` use `.get`
defaults. -/
def Node.from_dict {α : Type} (data : NodeRecord α) : Option (Node α) := do
  let nid ← data.node_id
  let x ← data.x
  let y ← data.y
  pure ⟨nid, x, y, data.name, data.properties.getD []⟩

/-- The dictionary form of an `entities` `Edge`. -/
structure EdgeRecord (α : Type) where
  edge_id : Option String
  from_node : Option String
  to_node : Option String
  throughput : Option ℚ
  bidirectional : Option Bool
  properties : Option (Tycoon.Dict α)
deriving DecidableEq

/-- `Edge.to_dict`. -/
def Edge.to_dict {α : Type} (e : Edge α) : EdgeRecord α :=
  ⟨some e.edge_id, some e.from_node, some e.to_node, some e.throughput,
    some e.bidirectional, some e.properties⟩

/-- `Edge.from_dict`. -/
def Edge.from_dict {α : Type} (data : EdgeRecord α) : Option (Edge α) := do
  let eid ← data.edge_id
  let f ← data.from_node
  let t ← data.to_node
  pure ⟨eid, f, t, data.throughput.getD 1, data.bidirectional.getD true,
    data.properties.getD []⟩

/-- The dictionary form of an `entities` `WorldMap`, id counters included. -/
structure WorldMapRecord (α : Type) where
  nodes : Option (Tycoon.Dict (NodeRecord α))
  edges : Option (Tycoon.Dict (EdgeRecord α))
  next_node_id : Option Nat
  next_edge_id : Option Nat
deriving DecidableEq

/-- `WorldMap.to_dict`. -/
def WorldMap.to_dict {α : Type} (m : WorldMap α) : WorldMapRecord α :=
  ⟨some (m.nodes.map (fun p => (p.1, p.2.to_dict))),
    some (m.edges.map (fun p => (p.1, p.2.to_dict))),
    some m.next_node_id, some m.next_edge_id⟩

/-- `WorldMap.from_dict`: nodes first, then edges, keyed by the dictionary
keys; a record whose required fields are missing makes the whole call raise
(modelled as `none`).  No referential validation is performed. -/
def WorldMap.from_dict {α : Type} (data : WorldMapRecord α) : Option (WorldMap α) := do
  let nodes ← (data.nodes.getD []).mapM (fun p => do
    let nd ← Node.from_dict p.2
    pure (p.1, nd))
  let edges ← (data.edges.getD []).mapM (fun p => do
    let e ← Edge.from_dict p.2
    pure (p.1, e))
  pure ⟨Tycoon.dassign [] nodes, Tycoon.dassign [] edges,
    data.next_node_id.getD 0, data.next_edge_id.getD 0⟩

/-- All node ids that occur as an endpoint of some edge.  Only used as the
universe of the termination measure of the BFS loop. -/
def WorldMap.endpointIds {α : Type} (m : WorldMap α) : List String :=
  ((Tycoon.dvalues m.edges).flatMap (fun e => [e.from_node, e.to_node])).dedup

/-- The inner `for` loop of `WorldMap.find_path` in the case where no
neighbour equals the target: every not-yet-visited neighbour is added to the
visited set and enqueued with its path. -/
def bfsVisit (path : List String) (nbrs visited : List String)
    (queue : List (String × List String)) : List String × List (String × List String) :=
  match nbrs with
  | [] => (visited, queue)
  | n :: rest =>
    if n ∈ visited then bfsVisit path rest visited queue
    else bfsVisit path rest (n :: visited) (queue ++ [(n, path ++ [n])])

/-- The neighbours newly enqueued by `bfsVisit`, in order. -/
def bfsNew (nbrs visited : List String) : List String :=
  match nbrs with
  | [] => []
  | n :: rest => if n ∈ visited then bfsNew rest visited else n :: bfsNew rest (n :: visited)

theorem bfsVisit_eq (path : List String) :
    ∀ (nbrs visited : List String) (queue : List (String × List String)),
    bfsVisit path nbrs visited queue =
      ((bfsNew nbrs visited).reverse ++ visited,
        queue ++ (bfsNew nbrs visited).map (fun n => (n, path ++ [n]))) := by
  intro nbrs
  induction nbrs with
  | nil => intro v q; simp [bfsVisit, bfsNew]
  | cons n rest ih =>
    intro v q
    by_cases h : n ∈ v
    · simp only [bfsVisit, bfsNew, if_pos h]
      exact ih v q
    · simp only [bfsVisit, bfsNew, if_neg h, ih]
      simp [List.append_assoc]

theorem bfsNew_mem {nbrs : List String} : ∀ {visited : List String} {n : String},
    n ∈ bfsNew nbrs visited → n ∈ nbrs ∧ n ∉ visited := by
  induction nbrs with
  | nil => intro v n h; simp [bfsNew] at h
  | cons x rest ih =>
    intro v n h
    by_cases hx : x ∈ v
    · rw [bfsNew, if_pos hx] at h
      rcases ih h with ⟨h1, h2⟩
      exact ⟨List.mem_cons_of_mem _ h1, h2⟩
    · rw [bfsNew, if_neg hx] at h
      rcases List.mem_cons.mp h with h | h
      · exact ⟨h ▸ List.mem_cons_self _ _, h ▸ hx⟩
      · rcases ih h with ⟨h1, h2⟩
        refine ⟨List.mem_cons_of_mem _ h1, fun hv => h2 (List.mem_cons_of_mem _ hv)⟩

theorem bfsNew_nodup (nbrs : List String) : ∀ (visited : List String),
    (bfsNew nbrs visited).Nodup := by
  induction nbrs with
  | nil => intro v; simp [bfsNew]
  | cons x rest ih =>
    intro v
    by_cases hx : x ∈ v
    · rw [bfsNew, if_pos hx]; exact ih v
    · rw [bfsNew, if_neg hx]
      refine List.nodup_cons.mpr ⟨fun hmem => ?_, ih (x :: v)⟩
      exact (bfsNew_mem hmem).2 (List.mem_cons_self _ _)

theorem mem_of_mem_nbrs (nbrs : List String) : ∀ (visited : List String) {n : String},
    n ∈ nbrs → n ∈ bfsNew nbrs visited ∨ n ∈ visited := by
  induction nbrs with
  | nil => intro v n h; simp at h
  | cons x rest ih =>
    intro v n h
    by_cases hx : x ∈ v
    · rw [bfsNew, if_pos hx]
      rcases List.mem_cons.mp h with h | h
      · exact Or.inr (h ▸ hx)
      · exact ih v h
    · rw [bfsNew, if_neg hx]
      rcases List.mem_cons.mp h with h | h
      · exact Or.inl (h ▸ List.mem_cons_self _ _)
      · rcases ih (x :: v) h with h1 | h1
        · exact Or.inl (List.mem_cons_of_mem _ h1)
        · rcases List.mem_cons.mp h1 with h2 | h2
          · exact Or.inl (h2 ▸ List.mem_cons_self _ _)
          · exact Or.inr h2

/-- Termination measure helper: how many endpoint ids are not yet visited. -/
def needU {α : Type} (m : WorldMap α) (visited : List String) : Nat :=
  (m.endpointIds.toFinset.filter (fun u => u ∉ visited)).card

theorem needU_drop {α : Type} (m : WorldMap α) (news visited : List String)
    (hnd : news.Nodup) (hsub : ∀ n ∈ news, n ∈ m.endpointIds ∧ n ∉ visited) :
    needU m (news.reverse ++ visited) + news.length ≤ needU m visited := by
  classical
  have hset : m.endpointIds.toFinset.filter (fun u => u ∉ news.reverse ++ visited) =
      (m.endpointIds.toFinset.filter (fun u => u ∉ visited)) \ news.toFinset := by
    ext u
    simp only [Finset.mem_filter, Finset.mem_sdiff, List.mem_append, List.mem_reverse,
      List.mem_toFinset]
    tauto
  have hsubF : news.toFinset ⊆ m.endpointIds.toFinset.filter (fun u => u ∉ visited) := by
    intro u hu
    rw [List.mem_toFinset] at hu
    rcases hsub u hu with ⟨h1, h2⟩
    exact Finset.mem_filter.mpr ⟨List.mem_toFinset.mpr h1, h2⟩
  have hcard : news.toFinset.card = news.length := List.toFinset_card_of_nodup hnd
  simp only [needU]
  rw [hset, Finset.card_sdiff hsubF]
  have := Finset.card_le_card hsubF
  omega

theorem other_node_endpoint {α : Type} {e : Edge α} {x o : String}
    (h : e.other_node x = some o) : o = e.to_node ∨ o = e.from_node := by
  unfold Edge.other_node at h
  by_cases h1 : x = e.from_node
  · rw [if_pos h1] at h
    exact Or.inl (Option.some_injective _ h).symm
  · rw [if_neg h1] at h
    by_cases h2 : x = e.to_node ∧ e.bidirectional = true
    · rw [if_pos h2] at h
      exact Or.inr (Option.some_injective _ h).symm
    · rw [if_neg h2] at h
      exact absurd h (by simp)

theorem get_neighbors_endpoint {α : Type} (m : WorldMap α) (x : String) :
    ∀ o ∈ (m.get_neighbors x).map Prod.fst, o ∈ m.endpointIds := by
  intro o ho
  rw [List.mem_map] at ho
  rcases ho with ⟨⟨o', e⟩, hmem, hfst⟩
  rw [WorldMap.get_neighbors, List.mem_filterMap] at hmem
  rcases hmem with ⟨e', he', hres⟩
  cases hcase : e'.other_node x with
  | none => rw [hcase] at hres; simp at hres
  | some other =>
    rw [hcase] at hres
    by_cases hemp : other = ""
    · simp [hemp] at hres
    · simp [hemp] at hres
      rw [WorldMap.endpointIds, List.mem_dedup, List.mem_flatMap]
      refine ⟨e', he', ?_⟩
      rcases other_node_endpoint hcase with h | h
      · simp [← hfst, ← hres.1, h]
      · simp [← hfst, ← hres.1, h]

/-- The `while queue:` loop of `WorldMap.find_path`.  One iteration pops the
front entry, returns `path + [to_node]` as soon as a neighbour equals the
target (the early `return` inside the Python `for` loop: the visited/queue
mutations made before that `return` are discarded with the whole call), and
otherwise enqueues all unvisited neighbours and recurses. -/
def bfsLoop {α : Type} (m : WorldMap α) (toN : String) (visited : List String)
    (queue : List (String × List String)) : Option (List String) :=
  match queue with
  | [] => none
  | (current, path) :: rest =>
    if toN ∈ (m.get_neighbors current).map Prod.fst then some (path ++ [toN])
    else
      bfsLoop m toN (bfsVisit path ((m.get_neighbors current).map Prod.fst) visited rest).1
        (bfsVisit path ((m.get_neighbors current).map Prod.fst) visited rest).2
termination_by 2 * needU m visited + queue.length
decreasing_by
  have hdrop := needU_drop m (bfsNew ((m.get_neighbors current).map Prod.fst) visited) visited
    (bfsNew_nodup _ _)
    (fun n hn => ⟨get_neighbors_endpoint m current n (bfsNew_mem hn).1, (bfsNew_mem hn).2⟩)
  simp only [bfsVisit_eq, List.length_append, List.length_map, List.length_cons]
  omega

/-- `WorldMap.find_path`: BFS between two node ids. -/
def WorldMap.find_path {α : Type} (m : WorldMap α) (from_node to_node : String) :
    Option (List String) :=
  if ¬ Tycoon.dmem m.nodes from_node ∨ ¬ Tycoon.dmem m.nodes to_node then none
  else if from_node = to_node then some [from_node]
  else bfsLoop m to_node [from_node] [(from_node, [from_node])]

/-- One BFS step: `y` is listed among the neighbours of `x` (the directed
neighbour relation computed by `get_neighbors`). -/
def Nbr {α : Type} (m : WorldMap α) (x y : String) : Prop :=
  y ∈ (m.get_neighbors x).map Prod.fst

instance {α : Type} (m : WorldMap α) (x y : String) : Decidable (Nbr m x y) := by
  unfold Nbr; infer_instance

/-- There is a walk of exactly `n` edges from `x` to `z` along the neighbour
relation. -/
inductive NSteps {α : Type} (m : WorldMap α) : String → String → Nat → Prop
  | refl (x : String) : NSteps m x x 0
  | step {x y z : String} {n : Nat} : Nbr m x y → NSteps m y z n → NSteps m x z (n + 1)

/-- `y` can be reached from `x` along the neighbour relation. -/
def Reachable {α : Type} (m : WorldMap α) (x y : String) : Prop :=
  ∃ n, NSteps m x y n

/-- `d` is the number of edges of a shortest walk from `x` to `y`. -/
def MinDist {α : Type} (m : WorldMap α) (x y : String) (d : Nat) : Prop :=
  NSteps m x y d ∧ ∀ k, NSteps m x y k → d ≤ k

theorem nsteps_zero {α : Type} {m : WorldMap α} {x y : String}
    (h : NSteps m x y 0) : x = y := by
  cases h; rfl

theorem nsteps_succ {α : Type} {m : WorldMap α} {x y : String} {n : Nat}
    (h : NSteps m x y (n + 1)) : ∃ z, Nbr m x z ∧ NSteps m z y n := by
  cases h with
  | step hnb hrest => exact ⟨_, hnb, hrest⟩

theorem nsteps_trans {α : Type} {m : WorldMap α} {x y z : String} {a b : Nat}
    (h1 : NSteps m x y a) (h2 : NSteps m y z b) : NSteps m x z (a + b) := by
  induction h1 with
  | refl => simpa using h2
  | step hnb _ ih =>
    have := NSteps.step hnb (ih h2)
    have harith : ∀ c d : Nat, c + d + 1 = c + 1 + d := by omega
    rw [← harith]
    exact this

theorem nsteps_snoc {α : Type} {m : WorldMap α} {x y z : String} {a : Nat}
    (h1 : NSteps m x y a) (h2 : Nbr m y z) : NSteps m x z (a + 1) :=
  nsteps_trans h1 (NSteps.step h2 (NSteps.refl z))

theorem chain_nsteps {α : Type} {m : WorldMap α} :
    ∀ (p : List String) (x y : String), p.head? = some x → p.getLast? = some y →
    List.Chain' (Nbr m) p → NSteps m x y (p.length - 1) := by
  intro p
  induction p with
  | nil => intro x y h; simp at h
  | cons a rest ih =>
    intro x y hhd hlast hchain
    have hax : a = x := by simpa using hhd
    cases rest with
    | nil =>
      have hay : a = y := by simpa using hlast
      rw [← hax, ← hay]
      simpa using NSteps.refl a
    | cons b rest' =>
      have hnb : Nbr m a b := (List.chain'_cons.mp hchain).1
      have hch' : List.Chain' (Nbr m) (b :: rest') := (List.chain'_cons.mp hchain).2
      have hlast' : (b :: rest').getLast? = some y := by
        rw [List.getLast?_cons_cons] at hlast
        exact hlast
      subst hax
      have hstep := NSteps.step hnb (ih b y rfl hlast' hch')
      simpa using hstep

/-- The loop invariant of the BFS in `find_path`, for source `s` and target
`t`: every queue entry carries a shortest path from `s` to its node; queue
path lengths are sorted and span at most two BFS levels; queue nodes are
visited and mutually distinct; `s` is visited, `t` is not; and every visited
node that has already been dequeued has all its neighbours visited. -/
structure BfsInv {α : Type} (m : WorldMap α) (s t : String) (visited : List String)
    (queue : List (String × List String)) : Prop where
  path_ok : ∀ e ∈ queue, e.2.head? = some s ∧ e.2.getLast? = some e.1 ∧
    List.Chain' (Nbr m) e.2 ∧ MinDist m s e.1 (e.2.length - 1)
  sorted : List.Sorted (· ≤ ·) (queue.map (fun e => e.2.length))
  two_levels : ∀ e0 ∈ queue.head?, ∀ e ∈ queue, e.2.length ≤ e0.2.length + 1
  sub : ∀ e ∈ queue, e.1 ∈ visited
  s_mem : s ∈ visited
  t_not : t ∉ visited
  closed : ∀ v ∈ visited, v ∉ queue.map Prod.fst → ∀ y, Nbr m v y → y ∈ visited
  nodupq : (queue.map Prod.fst).Nodup

/-- Any walk from a visited node to an unvisited node must pass through a
node that is still in the queue, with at least one edge remaining. -/
theorem bfs_crossing {α : Type} {m : WorldMap α} {visited : List String}
    {queue : List (String × List String)}
    (hclosed : ∀ v ∈ visited, v ∉ queue.map Prod.fst → ∀ y, Nbr m v y → y ∈ visited) :
    ∀ (n : Nat) (s' w : String), s' ∈ visited → w ∉ visited → NSteps m s' w n →
    ∃ u a b, u ∈ queue.map Prod.fst ∧ NSteps m s' u a ∧ NSteps m u w b ∧
      a + b = n ∧ 1 ≤ b := by
  intro n
  induction n with
  | zero =>
    intro s' w hs hw hst
    exact absurd ((nsteps_zero hst) ▸ hs) hw
  | succ k ih =>
    intro s' w hs hw hst
    by_cases hq : s' ∈ queue.map Prod.fst
    · exact ⟨s', 0, k + 1, hq, NSteps.refl s', hst, by omega, by omega⟩
    · rcases nsteps_succ hst with ⟨y, hxy, hyw⟩
      have hy : y ∈ visited := hclosed s' hs hq y hxy
      rcases ih y w hy hw hyw with ⟨u, a, b, h1, h2, h3, h4, h5⟩
      exact ⟨u, a + 1, b, h1, NSteps.step hxy h2, h3, by omega, h5⟩

/-- Lists of a constant value are sorted. -/
theorem sorted_const {β : Type} (l : List β) (c : Nat) :
    List.Sorted (· ≤ ·) (l.map (fun _ => c)) := by
  induction l with
  | nil => simp
  | cons a rest ih =>
    rw [List.map_cons, List.sorted_cons]
    exact ⟨fun b hb => by rcases List.mem_map.mp hb with ⟨_, _, rfl⟩; exact le_refl c, ih⟩

/-- In a state satisfying the invariant with a non-empty queue, the head
entry's path length is a lower bound on the distance from `s` to any queue
node. -/
theorem queue_dist_lb {α : Type} {m : WorldMap α} {s t current : String}
    {path : List String} {visited : List String} {rest : List (String × List String)}
    (inv : BfsInv m s t visited ((current, path) :: rest)) :
    ∀ u ∈ ((current, path) :: rest).map Prod.fst, ∀ a, NSteps m s u a →
    path.length - 1 ≤ a := by
  intro u hu a ha
  rcases List.mem_map.mp hu with ⟨e, he, hfst⟩
  have hmd := (inv.path_ok e he).2.2.2
  have h1 : e.2.length - 1 ≤ a := hmd.2 a (hfst ▸ ha)
  have h2 : path.length ≤ e.2.length := by
    rcases List.mem_cons.mp he with h | h
    · rw [h]
    · have := List.rel_of_sorted_cons inv.sorted e.2.length
        (List.mem_map.mpr ⟨e, h, rfl⟩)
      exact this
  omega

/-- For an unvisited node, the head path length bounds the distance from `s`
below (crossing plus the sortedness of the queue). -/
theorem unvisited_dist_lb {α : Type} {m : WorldMap α} {s t current : String}
    {path : List String} {visited : List String} {rest : List (String × List String)}
    (inv : BfsInv m s t visited ((current, path) :: rest)) :
    ∀ w, w ∉ visited → ∀ k, NSteps m s w k → path.length ≤ k := by
  intro w hw k hk
  rcases bfs_crossing inv.closed k s w inv.s_mem hw hk with ⟨u, a, b, h1, h2, h3, h4, h5⟩
  have hlb := queue_dist_lb inv u h1 a h2
  have hpos : 1 ≤ path.length := by
    have := (inv.path_ok (current, path) (List.mem_cons_self _ _)).1
    cases path with
    | nil => simp at this
    | cons _ _ => simp
  omega

theorem head?_append_left {β : Type} {p : List β} (q : List β) {a : β}
    (h : p.head? = some a) : (p ++ q).head? = some a := by
  cases p with
  | nil => simp at h
  | cons x rest => simpa using h

/-- One BFS iteration that does not hit the target preserves the invariant. -/
theorem bfsInv_step {α : Type} {m : WorldMap α} {s t current : String}
    {path : List String} {visited : List String} {rest : List (String × List String)}
    (inv : BfsInv m s t visited ((current, path) :: rest))
    (hmiss : t ∉ (m.get_neighbors current).map Prod.fst) :
    BfsInv m s t
      ((bfsNew ((m.get_neighbors current).map Prod.fst) visited).reverse ++ visited)
      (rest ++ (bfsNew ((m.get_neighbors current).map Prod.fst) visited).map
        (fun n => (n, path ++ [n]))) := by
  set nbrs := (m.get_neighbors current).map Prod.fst with hnbrs
  set news := bfsNew nbrs visited with hnews
  have hpo := inv.path_ok (current, path) (List.mem_cons_self _ _)
  have hhd : path.head? = some s := hpo.1
  have hlst : path.getLast? = some current := hpo.2.1
  have hchn : List.Chain' (Nbr m) path := hpo.2.2.1
  have hmd : MinDist m s current (path.length - 1) := hpo.2.2.2
  have hpne : path ≠ [] := by cases path <;> simp_all
  have hplen : 1 ≤ path.length := by
    cases path with
    | nil => exact absurd rfl hpne
    | cons _ _ => simp
  have hnbr_new : ∀ n ∈ news, Nbr m current n ∧ n ∉ visited := by
    intro n hn
    exact ⟨(bfsNew_mem hn).1, (bfsNew_mem hn).2⟩
  have hmd_new : ∀ n ∈ news, MinDist m s n path.length := by
    intro n hn
    constructor
    · have h1 := nsteps_snoc hmd.1 (hnbr_new n hn).1
      have h2 : path.length - 1 + 1 = path.length := by omega
      rwa [h2] at h1
    · intro k hk
      exact unvisited_dist_lb inv n (hnbr_new n hn).2 k hk
  have hsorted_cons := inv.sorted
  rw [List.map_cons] at hsorted_cons
  have hrest_sorted := (List.sorted_cons.mp hsorted_cons).2
  have hrest_lb : ∀ b ∈ List.map (fun e => e.2.length) rest, path.length ≤ b :=
    (List.sorted_cons.mp hsorted_cons).1
  have htwo : ∀ e ∈ (current, path) :: rest, e.2.length ≤ path.length + 1 :=
    inv.two_levels (current, path) (by simp)
  have hQfst : ((rest ++ news.map (fun n => (n, path ++ [n]))).map Prod.fst) =
      rest.map Prod.fst ++ news := by
    rw [List.map_append, List.map_map,
      show (Prod.fst ∘ fun n : String => (n, path ++ [n])) = id from rfl, List.map_id]
  have hrest_vis : ∀ a ∈ rest.map Prod.fst, a ∈ visited := by
    intro a ha
    rcases List.mem_map.mp ha with ⟨e, he, rfl⟩
    exact inv.sub e (List.mem_cons_of_mem _ he)
  refine ⟨?_, ?_, ?_, ?_, ?_, ?_, ?_, ?_⟩
  · -- path_ok
    intro e he
    rcases List.mem_append.mp he with he | he
    · exact inv.path_ok e (List.mem_cons_of_mem _ he)
    · rcases List.mem_map.mp he with ⟨n, hn, rfl⟩
      refine ⟨head?_append_left _ hhd, List.getLast?_concat _, ?_, ?_⟩
      · rw [List.chain'_append]
        refine ⟨hchn, List.chain'_singleton n, ?_⟩
        intro x hx y hy
        have hx' : current = x := by rw [hlst] at hx; simpa using hx
        have hy' : n = y := by simpa using hy
        rw [← hx', ← hy']
        exact (hnbr_new n hn).1
      · have : (path ++ [n]).length - 1 = path.length := by simp
        rw [this]
        exact hmd_new n hn
  · -- sorted
    rw [List.map_append, List.map_map]
    have hfun : ((fun e : String × List String => e.2.length) ∘
        (fun n : String => (n, path ++ [n]))) = fun _ => path.length + 1 := by
      funext n; simp
    rw [hfun, List.map_const']
    refine List.pairwise_append.mpr ⟨hrest_sorted, ?_, ?_⟩
    · exact List.pairwise_replicate.mpr (Or.inr (le_refl _))
    · intro a ha b hb
      have hb' : b = path.length + 1 := List.eq_of_mem_replicate hb
      rcases List.mem_map.mp ha with ⟨e, he, rfl⟩
      have := htwo e (List.mem_cons_of_mem _ he)
      omega
  · -- two_levels
    intro e0 he0 e he
    have hlen_e : e.2.length ≤ path.length + 1 := by
      rcases List.mem_append.mp he with h | h
      · exact htwo e (List.mem_cons_of_mem _ h)
      · rcases List.mem_map.mp h with ⟨n, hn, rfl⟩
        simp
    have hhead_lb : path.length ≤ e0.2.length := by
      cases hr : rest with
      | nil =>
        rw [hr] at he0
        simp only [List.nil_append] at he0
        cases hnc : news with
        | nil => rw [hnc] at he0; simp at he0
        | cons n0 news' =>
          rw [hnc] at he0
          simp only [List.map_cons, List.head?_cons, Option.mem_def,
            Option.some.injEq] at he0
          rw [← he0]
          simp
      | cons r rest' =>
        rw [hr] at he0
        simp only [List.cons_append, List.head?_cons, Option.mem_def,
          Option.some.injEq] at he0
        rw [← he0]
        exact hrest_lb r.2.length
          (List.mem_map.mpr ⟨r, by rw [hr]; exact List.mem_cons_self _ _, rfl⟩)
    omega
  · -- sub
    intro e he
    rcases List.mem_append.mp he with h | h
    · exact List.mem_append_right _ (inv.sub e (List.mem_cons_of_mem _ h))
    · rcases List.mem_map.mp h with ⟨n, hn, rfl⟩
      exact List.mem_append_left _ (List.mem_reverse.mpr hn)
  · -- s_mem
    exact List.mem_append_right _ inv.s_mem
  · -- t_not
    intro h
    rcases List.mem_append.mp h with h | h
    · exact hmiss (bfsNew_mem (List.mem_reverse.mp h)).1
    · exact inv.t_not h
  · -- closed
    intro v hv hvq y hnb
    rw [hQfst] at hvq
    rcases List.mem_append.mp hv with h | h
    · exact absurd (List.mem_append_right _ (List.mem_reverse.mp h)) hvq
    · by_cases hvc : v = current
      · subst hvc
        rcases mem_of_mem_nbrs nbrs visited hnb with h1 | h1
        · exact List.mem_append_left _ (List.mem_reverse.mpr h1)
        · exact List.mem_append_right _ h1
      · have hvold : v ∉ ((current, path) :: rest).map Prod.fst := by
          intro hmem
          rcases List.mem_map.mp hmem with ⟨e, he, rfl⟩
          rcases List.mem_cons.mp he with h2 | h2
          · exact hvc (by rw [h2])
          · exact hvq (List.mem_append_left _ (List.mem_map.mpr ⟨e, h2, rfl⟩))
        exact List.mem_append_right _ (inv.closed v h hvold y hnb)
  · -- nodupq
    rw [hQfst]
    have hold := inv.nodupq
    rw [List.map_cons] at hold
    refine List.Nodup.append (List.nodup_cons.mp hold).2 (bfsNew_nodup _ _) ?_
    intro a ha hb
    exact (bfsNew_mem hb).2 (hrest_vis a ha)

/-- A correct BFS answer: a neighbour chain from `s` to `t` whose number of
edges is minimal among all walks from `s` to `t`. -/
def GoodPath {α : Type} (m : WorldMap α) (s t : String) (p : List String) : Prop :=
  p.head? = some s ∧ p.getLast? = some t ∧ List.Chain' (Nbr m) p ∧
    MinDist m s t (p.length - 1)

theorem bfsLoop_sound {α : Type} {m : WorldMap α} {s t : String} :
    ∀ (N : Nat) (visited : List String) (queue : List (String × List String)),
    2 * needU m visited + queue.length ≤ N →
    BfsInv m s t visited queue →
    ∀ p, bfsLoop m t visited queue = some p → GoodPath m s t p := by
  intro N
  induction N with
  | zero =>
    intro visited queue hle inv p hp
    cases queue with
    | nil => simp [bfsLoop] at hp
    | cons e rest => simp at hle
  | succ N ih =>
    intro visited queue hle inv p hp
    cases queue with
    | nil => simp [bfsLoop] at hp
    | cons e rest =>
      obtain ⟨current, path⟩ := e
      rw [bfsLoop] at hp
      have hpo := inv.path_ok (current, path) (List.mem_cons_self _ _)
      have hhd : path.head? = some s := hpo.1
      have hlst : path.getLast? = some current := hpo.2.1
      have hchn : List.Chain' (Nbr m) path := hpo.2.2.1
      have hmd : MinDist m s current (path.length - 1) := hpo.2.2.2
      have hplen : 1 ≤ path.length := by
        cases path with
        | nil => simp at hhd
        | cons _ _ => simp
      by_cases hhit : t ∈ (m.get_neighbors current).map Prod.fst
      · rw [if_pos hhit] at hp
        have hpt : p = path ++ [t] := by
          injection hp with h
          exact h.symm
        subst hpt
        refine ⟨head?_append_left _ hhd, List.getLast?_concat _, ?_, ?_⟩
        · rw [List.chain'_append]
          refine ⟨hchn, List.chain'_singleton t, ?_⟩
          intro x hx y hy
          have hx' : current = x := by rw [hlst] at hx; simpa using hx
          have hy' : t = y := by simpa using hy
          rw [← hx', ← hy']
          exact hhit
        · have hlen : (path ++ [t]).length - 1 = path.length := by simp
          rw [hlen]
          constructor
          · have h1 := nsteps_snoc hmd.1 hhit
            have h2 : path.length - 1 + 1 = path.length := by omega
            rwa [h2] at h1
          · intro k hk
            exact unvisited_dist_lb inv t inv.t_not k hk
      · rw [if_neg hhit] at hp
        simp only [bfsVisit_eq] at hp
        have inv' := bfsInv_step inv hhit
        have hdrop := needU_drop m (bfsNew ((m.get_neighbors current).map Prod.fst) visited)
          visited (bfsNew_nodup _ _)
          (fun n hn => ⟨get_neighbors_endpoint m current n (bfsNew_mem hn).1, (bfsNew_mem hn).2⟩)
        refine ih _ _ ?_ inv' p hp
        simp only [List.length_append, List.length_map, List.length_cons] at hle ⊢
        omega

theorem bfsInv_nil_unreachable {α : Type} {m : WorldMap α} {s t : String}
    {visited : List String} (inv : BfsInv m s t visited []) : ¬ Reachable m s t := by
  rintro ⟨n, hst⟩
  rcases bfs_crossing inv.closed n s t inv.s_mem inv.t_not hst with ⟨u, a, b, hu, _, _, _, _⟩
  simp at hu

theorem bfsLoop_complete {α : Type} {m : WorldMap α} {s t : String} :
    ∀ (N : Nat) (visited : List String) (queue : List (String × List String)),
    2 * needU m visited + queue.length ≤ N →
    BfsInv m s t visited queue → Reachable m s t →
    (bfsLoop m t visited queue).isSome := by
  intro N
  induction N with
  | zero =>
    intro visited queue hle inv hreach
    cases queue with
    | nil => exact absurd hreach (bfsInv_nil_unreachable inv)
    | cons e rest => simp at hle
  | succ N ih =>
    intro visited queue hle inv hreach
    cases queue with
    | nil => exact absurd hreach (bfsInv_nil_unreachable inv)
    | cons e rest =>
      obtain ⟨current, path⟩ := e
      rw [bfsLoop]
      by_cases hhit : t ∈ (m.get_neighbors current).map Prod.fst
      · rw [if_pos hhit]
        simp
      · rw [if_neg hhit]
        simp only [bfsVisit_eq]
        have inv' := bfsInv_step inv hhit
        have hdrop := needU_drop m (bfsNew ((m.get_neighbors current).map Prod.fst) visited)
          visited (bfsNew_nodup _ _)
          (fun n hn => ⟨get_neighbors_endpoint m current n (bfsNew_mem hn).1, (bfsNew_mem hn).2⟩)
        refine ih _ _ ?_ inv' hreach
        simp only [List.length_append, List.length_map, List.length_cons] at hle ⊢
        omega

theorem find_path_init_inv {α : Type} (m : WorldMap α) {a b : String} (hab : a ≠ b) :
    BfsInv m a b [a] [(a, [a])] := by
  refine ⟨?_, ?_, ?_, ?_, ?_, ?_, ?_, ?_⟩
  · intro e he
    have : e = (a, [a]) := by simpa using he
    subst this
    exact ⟨rfl, rfl, List.chain'_singleton a,
      NSteps.refl a, fun k _ => Nat.zero_le k⟩
  · simp
  · intro e0 he0 e he
    have h1 : (a, [a]) = e0 := by simpa using he0
    have h2 : e = (a, [a]) := by simpa using he
    subst h2
    rw [← h1]
    omega
  · intro e he
    have : e = (a, [a]) := by simpa using he
    subst this
    simp
  · simp
  · simp
    exact fun h => hab h.symm
  · intro v hv hvq y hnb
    have : v = a := by simpa using hv
    subst this
    simp at hvq
  · simp

theorem find_path_sound {α : Type} {m : WorldMap α} {a b : String} {p : List String}
    (h : m.find_path a b = some p) : GoodPath m a b p := by
  unfold WorldMap.find_path at h
  by_cases h1 : ¬ Tycoon.dmem m.nodes a ∨ ¬ Tycoon.dmem m.nodes b
  · rw [if_pos h1] at h; cases h
  · rw [if_neg h1] at h
    by_cases h2 : a = b
    · rw [if_pos h2] at h
      have hpa : p = [a] := by injection h with h; exact h.symm
      subst hpa h2
      exact ⟨rfl, rfl, List.chain'_singleton a, NSteps.refl a, fun k _ => Nat.zero_le k⟩
    · rw [if_neg h2] at h
      exact bfsLoop_sound (2 * needU m [a] + 1) [a] [(a, [a])] (le_refl _)
        (find_path_init_inv m h2) p h

theorem find_path_complete {α : Type} {m : WorldMap α} {a b : String}
    (hfa : Tycoon.dmem m.nodes a = true) (hfb : Tycoon.dmem m.nodes b = true)
    (h : Reachable m a b) : (m.find_path a b).isSome := by
  unfold WorldMap.find_path
  rw [if_neg (by simp [hfa, hfb])]
  by_cases h2 : a = b
  · rw [if_pos h2]; simp
  · rw [if_neg h2]
    exact bfsLoop_complete (2 * needU m [a] + 1) [a] [(a, [a])] (le_refl _)
      (find_path_init_inv m h2) h

theorem find_path_none_iff {α : Type} {m : WorldMap α} {a b : String}
    (hfa : Tycoon.dmem m.nodes a = true) (hfb : Tycoon.dmem m.nodes b = true) :
    m.find_path a b = none ↔ ¬ Reachable m a b := by
  constructor
  · intro h hreach
    have := find_path_complete hfa hfb hreach
    rw [h] at this
    simp at this
  · intro h
    cases hfp : m.find_path a b with
    | none => rfl
    | some p => exact absurd ⟨p.length - 1, (find_path_sound hfp).2.2.2.1⟩ h

theorem find_path_refl {α : Type} {m : WorldMap α} {a : String}
    (ha : Tycoon.dmem m.nodes a = true) : m.find_path a a = some [a] := by
  unfold WorldMap.find_path
  rw [if_neg (by simp [ha]), if_pos rfl]

theorem find_path_absent {α : Type} {m : WorldMap α} {a b : String}
    (h : Tycoon.dmem m.nodes a = false ∨ Tycoon.dmem m.nodes b = false) :
    m.find_path a b = none := by
  unfold WorldMap.find_path
  rw [if_pos]
  rcases h with h | h <;> simp [h]

theorem get_neighbors_ne_empty {α : Type} (m : WorldMap α) (x : String) :
    ∀ o ∈ (m.get_neighbors x).map Prod.fst, o ≠ "" := by
  intro o ho
  rcases List.mem_map.mp ho with ⟨⟨o', e⟩, hmem, hfst⟩
  rw [WorldMap.get_neighbors, List.mem_filterMap] at hmem
  rcases hmem with ⟨e', he', hres⟩
  cases hcase : e'.other_node x with
  | none => rw [hcase] at hres; simp at hres
  | some other =>
    rw [hcase] at hres
    by_cases hemp : other = ""
    · simp [hemp] at hres
    · simp [hemp] at hres
      rw [← hfst]
      simpa [← hres.1] using hemp

theorem nbr_ne_empty {α : Type} {m : WorldMap α} {x y : String}
    (h : Nbr m x y) : y ≠ "" :=
  get_neighbors_ne_empty m x y h

theorem nsteps_to_empty {α : Type} {m : WorldMap α} :
    ∀ (n : Nat) (a : String), a ≠ "" → ¬ NSteps m a "" n := by
  intro n
  induction n with
  | zero => intro a ha h; exact ha (nsteps_zero h)
  | succ k ih =>
    intro a ha h
    rcases nsteps_succ h with ⟨y, hay, hy⟩
    exact ih y (nbr_ne_empty hay) hy

/-- In a neighbour chain, every element other than the head has an incoming
neighbour step. -/
theorem chain_mem_head_or_step {α : Type} {m : WorldMap α} :
    ∀ (p : List String) (x : String), List.Chain' (Nbr m) p → x ∈ p →
    p.head? = some x ∨ ∃ w, Nbr m w x := by
  intro p
  induction p with
  | nil => intro x _ hx; simp at hx
  | cons c rest ih =>
    intro x hchain hx
    rcases List.mem_cons.mp hx with h | h
    · exact Or.inl (by rw [h]; rfl)
    · cases rest with
      | nil => simp at h
      | cons d rest' =>
        have hcd : Nbr m c d := (List.chain'_cons.mp hchain).1
        have hch' : List.Chain' (Nbr m) (d :: rest') := (List.chain'_cons.mp hchain).2
        rcases ih x hch' h with h1 | h1
        · have hxd : d = x := by simpa using h1
          exact Or.inr ⟨c, hxd ▸ hcd⟩
        · exact Or.inr h1

end Entities

namespace Systems

/-- `systems/world_map.py` `Node`: position, type tag, properties and the
cached incident-edge id list `_connected_edges`. -/
structure Node (α : Type) where
  id : String
  x : ℚ
  y : ℚ
  type : String
  properties : Tycoon.Dict α
  connected_edges : List String
deriving DecidableEq

/-- `Node.__init__(node_id, x, y, node_type)`: empty properties and cache. -/
def Node.make (α : Type) (node_id : String) (x y : ℚ) (node_type : String) : Node α :=
  ⟨node_id, x, y, node_type, [], []⟩

/-- `Node.add_edge`: idempotent registration of an incident edge id. -/
def Node.add_edge {α : Type} (node : Node α) (edge_id : String) : Node α :=
  if edge_id ∈ node.connected_edges then node
  else { node with connected_edges := node.connected_edges ++ [edge_id] }

/-- `Node.remove_edge`: Python `list.remove` drops the first occurrence and
returns whether the id was tracked. -/
def Node.remove_edge {α : Type} (node : Node α) (edge_id : String) : Bool × Node α :=
  if edge_id ∈ node.connected_edges then
    (true, { node with connected_edges := node.connected_edges.erase edge_id })
  else (false, node)

/-- `systems/world_map.py` `Edge`, including the `current_flow` accumulator. -/
structure Edge (α : Type) where
  id : String
  from_node_id : String
  to_node_id : String
  throughput : ℚ
  bidirectional : Bool
  current_flow : ℚ
  properties : Tycoon.Dict α
deriving DecidableEq

/-- `Edge.__init__`: `current_flow` starts at 0, properties empty. -/
def Edge.make (α : Type) (edge_id from_node_id to_node_id : String)
    (throughput : ℚ) (bidirectional : Bool) : Edge α :=
  ⟨edge_id, from_node_id, to_node_id, throughput, bidirectional, 0, []⟩

/-- `Edge.get_capacity_remaining`. -/
def Edge.get_capacity_remaining {α : Type} (e : Edge α) : ℚ :=
  max 0 (e.throughput - e.current_flow)

/-- `Edge.can_accommodate`. -/
def Edge.can_accommodate {α : Type} (e : Edge α) (flow : ℚ) : Bool :=
  e.current_flow + flow ≤ e.throughput

/-- `Edge.add_flow`: guarded increment, returns whether the flow was added. -/
def Edge.add_flow {α : Type} (e : Edge α) (amount : ℚ) : Bool × Edge α :=
  if e.can_accommodate amount then
    (true, { e with current_flow := e.current_flow + amount })
  else (false, e)

/-- `Edge.remove_flow`: decrement clamped at zero. -/
def Edge.remove_flow {α : Type} (e : Edge α) (amount : ℚ) : Edge α :=
  { e with current_flow := max 0 (e.current_flow - amount) }

/-- `Edge.reset_flow`. -/
def Edge.reset_flow {α : Type} (e : Edge α) : Edge α :=
  { e with current_flow := 0 }

/-- `Edge.connects`. -/
def Edge.connects {α : Type} (e : Edge α) (node_id : String) : Bool :=
  node_id = e.from_node_id ∨ node_id = e.to_node_id

/-- `Edge.get_other_node`. -/
def Edge.get_other_node {α : Type} (e : Edge α) (node_id : String) : Option String :=
  if node_id = e.from_node_id then some e.to_node_id
  else if node_id = e.to_node_id then
    (if e.bidirectional = true then some e.from_node_id else none)
  else none

/-- `systems/world_map.py` `WorldMap`. -/
structure WorldMap (α : Type) where
  id : String
  nodes : Tycoon.Dict (Node α)
  edges : Tycoon.Dict (Edge α)
deriving DecidableEq

/-- `WorldMap.__init__`. -/
def WorldMap.make (α : Type) (map_id : String) : WorldMap α :=
  ⟨map_id, [], []⟩

/-- `WorldMap.add_node`: rejects a duplicate node id. -/
def WorldMap.add_node {α : Type} (m : WorldMap α) (node : Node α) : Bool × WorldMap α :=
  if Tycoon.dmem m.nodes node.id then (false, m)
  else (true, { m with nodes := Tycoon.dinsert m.nodes node.id node })

/-- `WorldMap.add_edge`: rejects a duplicate edge id or a missing endpoint,
then registers the edge id with both endpoint nodes. -/
def WorldMap.add_edge {α : Type} (m : WorldMap α) (edge : Edge α) : Bool × WorldMap α :=
  if Tycoon.dmem m.edges edge.id then (false, m)
  else if ¬ Tycoon.dmem m.nodes edge.from_node_id ∨ ¬ Tycoon.dmem m.nodes edge.to_node_id then
    (false, m)
  else
    let nodes1 := Tycoon.dupdate m.nodes edge.from_node_id (fun nd => nd.add_edge edge.id)
    let nodes2 := Tycoon.dupdate nodes1 edge.to_node_id (fun nd => nd.add_edge edge.id)
    (true, { m with edges := Tycoon.dinsert m.edges edge.id edge, nodes := nodes2 })

/-- `WorldMap.remove_edge`: unregisters the edge from both endpoints that are
still present, then deletes it. -/
def WorldMap.remove_edge {α : Type} (m : WorldMap α) (edge_id : String) :
    Bool × WorldMap α :=
  match Tycoon.dget m.edges edge_id with
  | none => (false, m)
  | some edge =>
    let nodes1 := Tycoon.dupdate m.nodes edge.from_node_id
      (fun nd => (nd.remove_edge edge_id).2)
    let nodes2 := Tycoon.dupdate nodes1 edge.to_node_id
      (fun nd => (nd.remove_edge edge_id).2)
    (true, { m with nodes := nodes2, edges := Tycoon.derase m.edges edge_id })

/-- `WorldMap.remove_node`: deletes the node, then removes every edge id that
was cached on it (via `remove_edge`). -/
def WorldMap.remove_node {α : Type} (m : WorldMap α) (node_id : String) :
    Bool × WorldMap α :=
  match Tycoon.dget m.nodes node_id with
  | none => (false, m)
  | some node =>
    let m1 : WorldMap α := { m with nodes := Tycoon.derase m.nodes node_id }
    let m2 := node.connected_edges.foldl (fun mm eid => (mm.remove_edge eid).2) m1
    (true, m2)

/-- `WorldMap.get_edges_from_node`: the cached incident ids, filtered to
edges still present. -/
def WorldMap.get_edges_from_node {α : Type} (m : WorldMap α) (node_id : String) :
    List (Edge α) :=
  match Tycoon.dget m.nodes node_id with
  | none => []
  | some node => node.connected_edges.filterMap (fun eid => Tycoon.dget m.edges eid)

/-- `WorldMap.get_neighbors`: resolves each incident edge's other endpoint,
keeping it only when the id is truthy (non-empty) and resolves to a node. -/
def WorldMap.get_neighbors {α : Type} (m : WorldMap α) (node_id : String) :
    List (Node α) :=
  (m.get_edges_from_node node_id).filterMap (fun e =>
    match e.get_other_node node_id with
    | some other => if other = "" then none else Tycoon.dget m.nodes other
    | none => none)

/-- `WorldMap.get_all_edges`. -/
def WorldMap.get_all_edges {α : Type} (m : WorldMap α) : List (Edge α) :=
  Tycoon.dvalues m.edges

/-- `WorldMap.clear`. -/
def WorldMap.clear {α : Type} (m : WorldMap α) : WorldMap α :=
  { m with nodes := [], edges := [] }

theorem Node.add_edge_id {α : Type} (nd : Node α) (eid : String) :
    (nd.add_edge eid).id = nd.id := by
  unfold Node.add_edge
  by_cases h : eid ∈ nd.connected_edges <;> simp [h]

theorem Node.mem_add_edge_cache {α : Type} (nd : Node α) (eid f : String) :
    f ∈ (nd.add_edge eid).connected_edges ↔ f ∈ nd.connected_edges ∨ f = eid := by
  unfold Node.add_edge
  by_cases h : eid ∈ nd.connected_edges
  · simp only [if_pos h]
    constructor
    · exact Or.inl
    · rintro (hf | rfl)
      · exact hf
      · exact h
  · simp [if_neg h]

theorem Node.add_edge_cache_nodup {α : Type} (nd : Node α) (eid : String)
    (h : nd.connected_edges.Nodup) : (nd.add_edge eid).connected_edges.Nodup := by
  unfold Node.add_edge
  by_cases hm : eid ∈ nd.connected_edges
  · simpa [hm] using h
  · simp only [if_neg hm]
    simp only [List.nodup_append]
    refine ⟨h, List.nodup_singleton eid, ?_⟩
    intro a ha hb
    have haq : a = eid := by simpa using hb
    exact hm (haq ▸ ha)

theorem Node.remove_edge_snd {α : Type} (nd : Node α) (eid : String) :
    (nd.remove_edge eid).2 = { nd with connected_edges := nd.connected_edges.erase eid } := by
  unfold Node.remove_edge
  by_cases h : eid ∈ nd.connected_edges
  · simp [h]
  · simp only [if_neg h]
    rw [List.erase_of_not_mem h]

theorem Edge.connects_iff {α : Type} (e : Edge α) (x : String) :
    e.connects x = true ↔ (x = e.from_node_id ∨ x = e.to_node_id) := by
  simp [Edge.connects]

/-- The states of the systems `WorldMap` reachable from a fresh map by
`add_node` (with freshly constructed nodes), `add_edge` (with freshly
constructed edges), `remove_node`, `remove_edge` and `clear`. -/
inductive SReach {α : Type} : WorldMap α → Prop
  | init (map_id : String) : SReach (WorldMap.make α map_id)
  | add_node {m : WorldMap α} (nid : String) (x y : ℚ) (ntype : String) :
      SReach m → SReach (m.add_node (Node.make α nid x y ntype)).2
  | add_edge {m : WorldMap α} (eid f t : String) (thr : ℚ) (bid : Bool) :
      SReach m → SReach (m.add_edge (Edge.make α eid f t thr bid)).2
  | remove_node {m : WorldMap α} (nid : String) :
      SReach m → SReach (m.remove_node nid).2
  | remove_edge {m : WorldMap α} (eid : String) :
      SReach m → SReach (m.remove_edge eid).2
  | clear_op {m : WorldMap α} : SReach m → SReach m.clear

/-- The core well-formedness of the systems `WorldMap`: unique keys matching
the stored ids, and node incidence caches that reflect exactly the edges
present in the edge mapping. -/
structure SCore {α : Type} (m : WorldMap α) : Prop where
  nnodup : (m.nodes.map Prod.fst).Nodup
  ednodup : (m.edges.map Prod.fst).Nodup
  nkeys : ∀ k nd, Tycoon.dget m.nodes k = some nd → nd.id = k
  ekeys : ∀ k e, Tycoon.dget m.edges k = some e → e.id = k
  cache_nodup : ∀ k nd, Tycoon.dget m.nodes k = some nd → nd.connected_edges.Nodup
  cache : ∀ k nd, Tycoon.dget m.nodes k = some nd → ∀ eid,
    eid ∈ nd.connected_edges ↔
      ∃ e, Tycoon.dget m.edges eid = some e ∧ e.connects nd.id = true

/-- The full invariant: the core plus referential integrity of edge
endpoints. -/
structure SInv {α : Type} (m : WorldMap α) extends SCore m : Prop where
  refint : ∀ k e, Tycoon.dget m.edges k = some e →
    Tycoon.dmem m.nodes e.from_node_id = true ∧ Tycoon.dmem m.nodes e.to_node_id = true

theorem sinv_make {α : Type} (map_id : String) : SInv (WorldMap.make α map_id) := by
  refine ⟨⟨?_, ?_, ?_, ?_, ?_, ?_⟩, ?_⟩ <;> intros <;> simp_all [WorldMap.make, Tycoon.dget]

theorem sinv_clear {α : Type} (m : WorldMap α) (_inv : SInv m) : SInv m.clear := by
  refine ⟨⟨?_, ?_, ?_, ?_, ?_, ?_⟩, ?_⟩ <;> intros <;> simp_all [WorldMap.clear, Tycoon.dget]

theorem sinv_add_node {α : Type} (m : WorldMap α) (node : Node α)
    (hfresh : node.connected_edges = []) (inv : SInv m) : SInv (m.add_node node).2 := by
  unfold WorldMap.add_node
  by_cases hm : Tycoon.dmem m.nodes node.id
  · simpa [hm] using inv
  · simp only [Bool.not_eq_true] at hm
    rw [if_neg (by simp [hm])]
    have hnodes : ∀ k, Tycoon.dget (Tycoon.dinsert m.nodes node.id node) k =
        if k = node.id then some node else Tycoon.dget m.nodes k := by
      intro k
      by_cases hk : k = node.id
      · subst hk; simp [Tycoon.dget_dinsert_self]
      · simp [Tycoon.dget_dinsert_ne m.nodes node.id k node hk, hk]
    have hdmem : ∀ x, Tycoon.dmem (Tycoon.dinsert m.nodes node.id node) x =
        (Tycoon.dmem m.nodes x || decide (x = node.id)) :=
      fun x => Tycoon.dmem_dinsert m.nodes node.id x node
    refine ⟨⟨?_, inv.ednodup, ?_, inv.ekeys, ?_, ?_⟩, ?_⟩
    · rw [Tycoon.keys_dinsert_of_not_dmem m.nodes node.id node hm]
      refine List.Nodup.append inv.nnodup (List.nodup_singleton _) ?_
      intro a ha hb
      have haq : a = node.id := by simpa using hb
      rw [haq] at ha
      exact (Tycoon.dmem_false_iff m.nodes node.id).mp hm ha
    · intro k nd h
      rw [hnodes k] at h
      by_cases hk : k = node.id
      · rw [if_pos hk] at h
        injection h with h
        rw [← h, hk]
      · rw [if_neg hk] at h
        exact inv.nkeys k nd h
    · intro k nd h
      rw [hnodes k] at h
      by_cases hk : k = node.id
      · rw [if_pos hk] at h
        injection h with h
        rw [← h, hfresh]
        exact List.nodup_nil
      · rw [if_neg hk] at h
        exact inv.cache_nodup k nd h
    · intro k nd h eid
      rw [hnodes k] at h
      by_cases hk : k = node.id
      · rw [if_pos hk] at h
        injection h with h
        rw [← h, hfresh]
        simp only [List.not_mem_nil, false_iff]
        rintro ⟨e, he, hc⟩
        rcases (Edge.connects_iff e node.id).mp hc with hc | hc
        · have := (inv.refint eid e he).1
          rw [← hc] at this
          rw [this] at hm
          cases hm
        · have := (inv.refint eid e he).2
          rw [← hc] at this
          rw [this] at hm
          cases hm
      · rw [if_neg hk] at h
        exact inv.cache k nd h eid
    · intro k e h
      have := inv.refint k e h
      rw [hdmem, hdmem, this.1, this.2]
      simp

/-- The combined effect of `add_edge`'s two node-registration updates on the
node stored under key `k`. -/
def addEdgeUpd {α : Type} (eid from_id to_id k : String) (nd : Node α) : Node α :=
  if k = to_id then (if k = from_id then nd.add_edge eid else nd).add_edge eid
  else (if k = from_id then nd.add_edge eid else nd)

theorem addEdgeUpd_id {α : Type} (eid f t k : String) (nd : Node α) :
    (addEdgeUpd eid f t k nd).id = nd.id := by
  unfold addEdgeUpd
  by_cases h2 : k = t
  · rw [if_pos h2]
    by_cases h1 : k = f
    · rw [if_pos h1, Node.add_edge_id, Node.add_edge_id]
    · rw [if_neg h1, Node.add_edge_id]
  · rw [if_neg h2]
    by_cases h1 : k = f
    · rw [if_pos h1, Node.add_edge_id]
    · rw [if_neg h1]

theorem addEdgeUpd_mem {α : Type} (eid f t k x : String) (nd : Node α) :
    x ∈ (addEdgeUpd eid f t k nd).connected_edges ↔
      x ∈ nd.connected_edges ∨ (x = eid ∧ (k = f ∨ k = t)) := by
  unfold addEdgeUpd
  by_cases h2 : k = t
  · rw [if_pos h2]
    by_cases h1 : k = f
    · rw [if_pos h1]
      simp only [Node.mem_add_edge_cache]
      tauto
    · rw [if_neg h1]
      simp only [Node.mem_add_edge_cache]
      tauto
  · rw [if_neg h2]
    by_cases h1 : k = f
    · rw [if_pos h1]
      simp only [Node.mem_add_edge_cache]
      tauto
    · rw [if_neg h1]
      tauto

theorem addEdgeUpd_nodup {α : Type} (eid f t k : String) (nd : Node α)
    (h : nd.connected_edges.Nodup) : (addEdgeUpd eid f t k nd).connected_edges.Nodup := by
  unfold addEdgeUpd
  by_cases h2 : k = t
  · rw [if_pos h2]
    by_cases h1 : k = f
    · rw [if_pos h1]
      exact Node.add_edge_cache_nodup _ _ (Node.add_edge_cache_nodup _ _ h)
    · rw [if_neg h1]
      exact Node.add_edge_cache_nodup _ _ h
  · rw [if_neg h2]
    by_cases h1 : k = f
    · rw [if_pos h1]
      exact Node.add_edge_cache_nodup _ _ h
    · rw [if_neg h1]
      exact h

theorem sinv_add_edge {α : Type} (m : WorldMap α) (edge : Edge α) (inv : SInv m) :
    SInv (m.add_edge edge).2 := by
  unfold WorldMap.add_edge
  by_cases h1 : Tycoon.dmem m.edges edge.id
  · simpa [h1] using inv
  · by_cases h2 : Tycoon.dmem m.nodes edge.from_node_id = true ∧
        Tycoon.dmem m.nodes edge.to_node_id = true
    · rw [if_neg (by simp [h1]), if_neg (by simp [h2.1, h2.2])]
      show SInv { m with
        edges := Tycoon.dinsert m.edges edge.id edge,
        nodes := Tycoon.dupdate
          (Tycoon.dupdate m.nodes edge.from_node_id (fun nd => nd.add_edge edge.id))
          edge.to_node_id (fun nd => nd.add_edge edge.id) }
      have hm : Tycoon.dmem m.edges edge.id = false := Bool.eq_false_iff.mpr h1
      have hget2 : ∀ k, Tycoon.dget (Tycoon.dupdate
          (Tycoon.dupdate m.nodes edge.from_node_id (fun nd => nd.add_edge edge.id))
          edge.to_node_id (fun nd => nd.add_edge edge.id)) k =
          Option.map (addEdgeUpd edge.id edge.from_node_id edge.to_node_id k)
            (Tycoon.dget m.nodes k) := by
        intro k
        by_cases hto : k = edge.to_node_id
        · rw [hto, Tycoon.dget_dupdate_self, ← hto]
          by_cases hfr : k = edge.from_node_id
          · rw [hfr, Tycoon.dget_dupdate_self, ← hfr, Option.map_map]
            cases Tycoon.dget m.nodes k with
            | none => rfl
            | some nd =>
              simp [addEdgeUpd]
          · rw [Tycoon.dget_dupdate_ne _ _ _ _ hfr]
            cases Tycoon.dget m.nodes k with
            | none => rfl
            | some nd =>
              simp [addEdgeUpd, hfr]
        · rw [Tycoon.dget_dupdate_ne _ _ _ _ hto]
          by_cases hfr : k = edge.from_node_id
          · rw [hfr, Tycoon.dget_dupdate_self, ← hfr]
            cases Tycoon.dget m.nodes k with
            | none => rfl
            | some nd =>
              simp [addEdgeUpd, hto]
          · rw [Tycoon.dget_dupdate_ne _ _ _ _ hfr]
            cases Tycoon.dget m.nodes k with
            | none => rfl
            | some nd =>
              simp [addEdgeUpd, hto, hfr]
      have hedget : ∀ k, Tycoon.dget (Tycoon.dinsert m.edges edge.id edge) k =
          if k = edge.id then some edge else Tycoon.dget m.edges k := by
        intro k
        by_cases hk : k = edge.id
        · subst hk; simp [Tycoon.dget_dinsert_self]
        · simp [Tycoon.dget_dinsert_ne m.edges edge.id k edge hk, hk]
      have hdmem2 : ∀ x, Tycoon.dmem (Tycoon.dupdate
          (Tycoon.dupdate m.nodes edge.from_node_id (fun nd => nd.add_edge edge.id))
          edge.to_node_id (fun nd => nd.add_edge edge.id)) x = Tycoon.dmem m.nodes x := by
        intro x
        rw [Tycoon.dmem_dupdate, Tycoon.dmem_dupdate]
      refine ⟨⟨?_, ?_, ?_, ?_, ?_, ?_⟩, ?_⟩
      · rw [Tycoon.keys_dupdate, Tycoon.keys_dupdate]
        exact inv.nnodup
      · rw [Tycoon.keys_dinsert_of_not_dmem m.edges edge.id edge hm]
        refine List.Nodup.append inv.ednodup (List.nodup_singleton _) ?_
        intro a ha hb
        have haq : a = edge.id := by simpa using hb
        rw [haq] at ha
        exact (Tycoon.dmem_false_iff m.edges edge.id).mp hm ha
      · intro k nd' h
        rw [hget2 k] at h
        cases hg : Tycoon.dget m.nodes k with
        | none => rw [hg] at h; simp at h
        | some nd =>
          rw [hg] at h
          injection h with h
          rw [← h, addEdgeUpd_id]
          exact inv.nkeys k nd hg
      · intro k e h
        rw [hedget k] at h
        by_cases hk : k = edge.id
        · rw [if_pos hk] at h
          injection h with h
          rw [← h, hk]
        · rw [if_neg hk] at h
          exact inv.ekeys k e h
      · intro k nd' h
        rw [hget2 k] at h
        cases hg : Tycoon.dget m.nodes k with
        | none => rw [hg] at h; simp at h
        | some nd =>
          rw [hg] at h
          injection h with h
          rw [← h]
          exact addEdgeUpd_nodup _ _ _ _ _ (inv.cache_nodup k nd hg)
      · intro k nd' h eid'
        rw [hget2 k] at h
        cases hg : Tycoon.dget m.nodes k with
        | none => rw [hg] at h; simp at h
        | some nd =>
          rw [hg] at h
          injection h with h
          rw [← h]
          have hid : nd.id = k := inv.nkeys k nd hg
          have hid' : (addEdgeUpd edge.id edge.from_node_id edge.to_node_id k nd).id = k := by
            rw [addEdgeUpd_id]; exact hid
          rw [addEdgeUpd_mem, hid']
          by_cases hf : eid' = edge.id
          · have hnot : eid' ∉ nd.connected_edges := by
              rw [inv.cache k nd hg eid']
              rintro ⟨e, he, _⟩
              rw [hf, Tycoon.dget_none_of_dmem_false hm] at he
              cases he
            constructor
            · rintro (hmem | ⟨_, hk⟩)
              · exact absurd hmem hnot
              · refine ⟨edge, ?_, ?_⟩
                · rw [hedget eid', if_pos hf]
                · rw [Edge.connects_iff]
                  tauto
            · rintro ⟨e, he, hc⟩
              rw [hedget eid', if_pos hf] at he
              injection he with he
              rw [← he] at hc
              rw [Edge.connects_iff] at hc
              exact Or.inr ⟨hf, by tauto⟩
          · constructor
            · rintro (hmem | ⟨hq, _⟩)
              · rcases (inv.cache k nd hg eid').mp hmem with ⟨e, he, hc⟩
                refine ⟨e, ?_, ?_⟩
                · rw [hedget eid', if_neg hf]
                  exact he
                · rw [hid] at hc
                  exact hc
              · exact absurd hq hf
            · rintro ⟨e, he, hc⟩
              rw [hedget eid', if_neg hf] at he
              refine Or.inl ((inv.cache k nd hg eid').mpr ⟨e, he, ?_⟩)
              rw [hid]
              exact hc
      · intro k e h
        rw [hedget k] at h
        rw [hdmem2, hdmem2]
        by_cases hk : k = edge.id
        · rw [if_pos hk] at h
          injection h with h
          rw [← h]
          exact h2
        · rw [if_neg hk] at h
          exact inv.refint k e h
    · rw [if_neg (by simp [h1])]
      rw [if_pos (by tauto)]
      exact inv

/-- The combined effect of `remove_edge`'s two node-unregistration updates on
the node stored under key `k`. -/
def removeEdgeUpd {α : Type} (eid from_id to_id k : String) (nd : Node α) : Node α :=
  if k = to_id then ((if k = from_id then (nd.remove_edge eid).2 else nd).remove_edge eid).2
  else (if k = from_id then (nd.remove_edge eid).2 else nd)

theorem removeEdgeUpd_id {α : Type} (eid f t k : String) (nd : Node α) :
    (removeEdgeUpd eid f t k nd).id = nd.id := by
  unfold removeEdgeUpd
  by_cases h2 : k = t
  · rw [if_pos h2]
    by_cases h1 : k = f
    · rw [if_pos h1, Node.remove_edge_snd, Node.remove_edge_snd]
    · rw [if_neg h1, Node.remove_edge_snd]
  · rw [if_neg h2]
    by_cases h1 : k = f
    · rw [if_pos h1, Node.remove_edge_snd]
    · rw [if_neg h1]

theorem removeEdgeUpd_nodup {α : Type} (eid f t k : String) (nd : Node α)
    (h : nd.connected_edges.Nodup) :
    (removeEdgeUpd eid f t k nd).connected_edges.Nodup := by
  unfold removeEdgeUpd
  by_cases h2 : k = t
  · rw [if_pos h2]
    by_cases h1 : k = f
    · rw [if_pos h1, Node.remove_edge_snd, Node.remove_edge_snd]
      exact (h.erase eid).erase eid
    · rw [if_neg h1, Node.remove_edge_snd]
      exact h.erase eid
  · rw [if_neg h2]
    by_cases h1 : k = f
    · rw [if_pos h1, Node.remove_edge_snd]
      exact h.erase eid
    · rw [if_neg h1]
      exact h

theorem removeEdgeUpd_mem {α : Type} (eid f t k x : String) (nd : Node α)
    (h : nd.connected_edges.Nodup) :
    x ∈ (removeEdgeUpd eid f t k nd).connected_edges ↔
      x ∈ nd.connected_edges ∧ ¬ (x = eid ∧ (k = f ∨ k = t)) := by
  unfold removeEdgeUpd
  by_cases h2 : k = t
  · rw [if_pos h2]
    by_cases h1 : k = f
    · rw [if_pos h1, Node.remove_edge_snd, Node.remove_edge_snd]
      simp only []
      rw [(h.erase eid).mem_erase_iff, h.mem_erase_iff]
      tauto
    · rw [if_neg h1, Node.remove_edge_snd]
      simp only []
      rw [h.mem_erase_iff]
      tauto
  · rw [if_neg h2]
    by_cases h1 : k = f
    · rw [if_pos h1, Node.remove_edge_snd]
      simp only []
      rw [h.mem_erase_iff]
      tauto
    · rw [if_neg h1]
      tauto

theorem score_remove_edge {α : Type} (eid : String) {m : WorldMap α} (sc : SCore m) :
    SCore (m.remove_edge eid).2 := by
  unfold WorldMap.remove_edge
  cases he0 : Tycoon.dget m.edges eid with
  | none => exact sc
  | some e0 =>
    show SCore { m with
      nodes := Tycoon.dupdate
        (Tycoon.dupdate m.nodes e0.from_node_id (fun nd => (nd.remove_edge eid).2))
        e0.to_node_id (fun nd => (nd.remove_edge eid).2),
      edges := Tycoon.derase m.edges eid }
    have hget2 : ∀ k, Tycoon.dget (Tycoon.dupdate
        (Tycoon.dupdate m.nodes e0.from_node_id (fun nd => (nd.remove_edge eid).2))
        e0.to_node_id (fun nd => (nd.remove_edge eid).2)) k =
        Option.map (removeEdgeUpd eid e0.from_node_id e0.to_node_id k)
          (Tycoon.dget m.nodes k) := by
      intro k
      by_cases hto : k = e0.to_node_id
      · rw [hto, Tycoon.dget_dupdate_self, ← hto]
        by_cases hfr : k = e0.from_node_id
        · rw [hfr, Tycoon.dget_dupdate_self, ← hfr, Option.map_map]
          cases Tycoon.dget m.nodes k with
          | none => rfl
          | some nd => simp [removeEdgeUpd]
        · rw [Tycoon.dget_dupdate_ne _ _ _ _ hfr]
          cases Tycoon.dget m.nodes k with
          | none => rfl
          | some nd => simp [removeEdgeUpd, hfr]
      · rw [Tycoon.dget_dupdate_ne _ _ _ _ hto]
        by_cases hfr : k = e0.from_node_id
        · rw [hfr, Tycoon.dget_dupdate_self, ← hfr]
          cases Tycoon.dget m.nodes k with
          | none => rfl
          | some nd => simp [removeEdgeUpd, hto]
        · rw [Tycoon.dget_dupdate_ne _ _ _ _ hfr]
          cases Tycoon.dget m.nodes k with
          | none => rfl
          | some nd => simp [removeEdgeUpd, hto, hfr]
    have hedget : ∀ k, Tycoon.dget (Tycoon.derase m.edges eid) k =
        if k = eid then none else Tycoon.dget m.edges k := by
      intro k
      by_cases hk : k = eid
      · rw [if_pos hk, hk]
        exact Tycoon.dget_derase_self m.edges eid
      · rw [if_neg hk]
        exact Tycoon.dget_derase_ne m.edges eid k hk
    refine ⟨?_, ?_, ?_, ?_, ?_, ?_⟩
    · rw [Tycoon.keys_dupdate, Tycoon.keys_dupdate]
      exact sc.nnodup
    · exact List.Nodup.sublist (Tycoon.keys_derase_sublist m.edges eid) sc.ednodup
    · intro k nd' h
      rw [hget2 k] at h
      cases hg : Tycoon.dget m.nodes k with
      | none => rw [hg] at h; simp at h
      | some nd =>
        rw [hg] at h
        injection h with h
        rw [← h, removeEdgeUpd_id]
        exact sc.nkeys k nd hg
    · intro k e h
      rw [hedget k] at h
      by_cases hk : k = eid
      · rw [if_pos hk] at h; cases h
      · rw [if_neg hk] at h
        exact sc.ekeys k e h
    · intro k nd' h
      rw [hget2 k] at h
      cases hg : Tycoon.dget m.nodes k with
      | none => rw [hg] at h; simp at h
      | some nd =>
        rw [hg] at h
        injection h with h
        rw [← h]
        exact removeEdgeUpd_nodup _ _ _ _ _ (sc.cache_nodup k nd hg)
    · intro k nd' h f
      rw [hget2 k] at h
      cases hg : Tycoon.dget m.nodes k with
      | none => rw [hg] at h; simp at h
      | some nd =>
        rw [hg] at h
        injection h with h
        rw [← h]
        have hid : nd.id = k := sc.nkeys k nd hg
        have hid' : (removeEdgeUpd eid e0.from_node_id e0.to_node_id k nd).id = k := by
          rw [removeEdgeUpd_id]; exact hid
        rw [removeEdgeUpd_mem eid _ _ k f nd (sc.cache_nodup k nd hg), hid']
        by_cases hf : f = eid
        · constructor
          · rintro ⟨hmem, hneg⟩
            exfalso
            rcases (sc.cache k nd hg f).mp hmem with ⟨e, he, hc⟩
            rw [hf, he0] at he
            injection he with he
            rw [← he] at hc
            rw [hid] at hc
            rw [Edge.connects_iff] at hc
            exact hneg ⟨hf, hc⟩
          · rintro ⟨e, he, hc⟩
            rw [hedget f, if_pos hf] at he
            cases he
        · constructor
          · rintro ⟨hmem, _⟩
            rcases (sc.cache k nd hg f).mp hmem with ⟨e, he, hc⟩
            refine ⟨e, ?_, ?_⟩
            · rw [hedget f, if_neg hf]
              exact he
            · rw [hid] at hc
              exact hc
          · rintro ⟨e, he, hc⟩
            rw [hedget f, if_neg hf] at he
            refine ⟨(sc.cache k nd hg f).mpr ⟨e, he, ?_⟩, ?_⟩
            · rw [hid]
              exact hc
            · rintro ⟨hq, _⟩
              exact hf hq

theorem sinv_remove_edge {α : Type} (eid : String) {m : WorldMap α} (inv : SInv m) :
    SInv (m.remove_edge eid).2 := by
  refine ⟨score_remove_edge eid inv.toSCore, ?_⟩
  unfold WorldMap.remove_edge
  cases he0 : Tycoon.dget m.edges eid with
  | none => exact inv.refint
  | some e0 =>
    intro k e h
    simp only at h ⊢
    rw [Tycoon.dmem_dupdate, Tycoon.dmem_dupdate, Tycoon.dmem_dupdate, Tycoon.dmem_dupdate]
    by_cases hk : k = eid
    · rw [hk, Tycoon.dget_derase_self] at h
      cases h
    · rw [Tycoon.dget_derase_ne m.edges eid k hk] at h
      exact inv.refint k e h

/-- The intermediate invariant inside `remove_node`, after the node `n` has
been deleted and while the edge ids in `L` still await removal: every
remaining edge either has present endpoints or touches `n`, and every edge
touching `n` is one of the pending ids. -/
structure SInvE {α : Type} (n : String) (L : List String) (m : WorldMap α)
    extends SCore m : Prop where
  n_not : Tycoon.dmem m.nodes n = false
  Lnodup : L.Nodup
  Lmem : ∀ eid ∈ L, ∃ e, Tycoon.dget m.edges eid = some e ∧ e.connects n = true
  refintE : ∀ k e, Tycoon.dget m.edges k = some e →
    (e.from_node_id = n ∨ Tycoon.dmem m.nodes e.from_node_id = true) ∧
    (e.to_node_id = n ∨ Tycoon.dmem m.nodes e.to_node_id = true) ∧
    (e.connects n = true → k ∈ L)

theorem sinvE_init {α : Type} {m : WorldMap α} {nid : String} {node : Node α}
    (inv : SInv m) (hget : Tycoon.dget m.nodes nid = some node) :
    SInvE nid node.connected_edges { m with nodes := Tycoon.derase m.nodes nid } := by
  have hid : node.id = nid := inv.nkeys nid node hget
  have hnget : ∀ k, k ≠ nid →
      Tycoon.dget (Tycoon.derase m.nodes nid) k = Tycoon.dget m.nodes k :=
    fun k hk => Tycoon.dget_derase_ne m.nodes nid k hk
  have hnone : Tycoon.dget (Tycoon.derase m.nodes nid) nid = none :=
    Tycoon.dget_derase_self m.nodes nid
  have hsome_ne : ∀ k (nd : Node α),
      Tycoon.dget (Tycoon.derase m.nodes nid) k = some nd →
      k ≠ nid ∧ Tycoon.dget m.nodes k = some nd := by
    intro k nd h
    by_cases hk : k = nid
    · rw [hk, hnone] at h; cases h
    · exact ⟨hk, by rw [← hnget k hk]; exact h⟩
  refine ⟨⟨?_, inv.ednodup, ?_, inv.ekeys, ?_, ?_⟩, ?_, ?_, ?_, ?_⟩
  · exact List.Nodup.sublist (Tycoon.keys_derase_sublist m.nodes nid) inv.nnodup
  · intro k nd h
    exact inv.nkeys k nd (hsome_ne k nd h).2
  · intro k nd h
    exact inv.cache_nodup k nd (hsome_ne k nd h).2
  · intro k nd h eid
    exact inv.cache k nd (hsome_ne k nd h).2 eid
  · rw [← Tycoon.dget_isSome_iff, hnone]
    rfl
  · exact inv.cache_nodup nid node hget
  · intro eid heid
    rcases (inv.cache nid node hget eid).mp heid with ⟨e, he, hc⟩
    rw [hid] at hc
    exact ⟨e, he, hc⟩
  · intro k e h
    have hr := inv.refint k e h
    refine ⟨?_, ?_, ?_⟩
    · by_cases hf : e.from_node_id = nid
      · exact Or.inl hf
      · rw [Tycoon.dmem_derase m.nodes nid e.from_node_id hf]
        exact Or.inr hr.1
    · by_cases hf : e.to_node_id = nid
      · exact Or.inl hf
      · rw [Tycoon.dmem_derase m.nodes nid e.to_node_id hf]
        exact Or.inr hr.2
    · intro hc
      refine (inv.cache nid node hget k).mpr ⟨e, h, ?_⟩
      rw [hid]
      exact hc

theorem sinvE_step {α : Type} {n eid : String} {L : List String} {m : WorldMap α}
    (inv : SInvE n (eid :: L) m) : SInvE n L (m.remove_edge eid).2 := by
  rcases inv.Lmem eid (List.mem_cons_self _ _) with ⟨e0, he0, hc0⟩
  have heid_notL : eid ∉ L := (List.nodup_cons.mp inv.Lnodup).1
  refine ⟨score_remove_edge eid inv.toSCore, ?_, (List.nodup_cons.mp inv.Lnodup).2, ?_, ?_⟩
  · unfold WorldMap.remove_edge
    rw [he0]
    simp only []
    rw [Tycoon.dmem_dupdate, Tycoon.dmem_dupdate]
    exact inv.n_not
  · intro f hf
    rcases inv.Lmem f (List.mem_cons_of_mem _ hf) with ⟨e, he, hc⟩
    have hfne : f ≠ eid := fun h => heid_notL (h ▸ hf)
    refine ⟨e, ?_, hc⟩
    unfold WorldMap.remove_edge
    rw [he0]
    simp only []
    rw [Tycoon.dget_derase_ne m.edges eid f hfne]
    exact he
  · intro k e h
    unfold WorldMap.remove_edge at h ⊢
    rw [he0] at h ⊢
    simp only [] at h ⊢
    rw [Tycoon.dmem_dupdate, Tycoon.dmem_dupdate, Tycoon.dmem_dupdate, Tycoon.dmem_dupdate]
    by_cases hk : k = eid
    · rw [hk, Tycoon.dget_derase_self] at h
      cases h
    · rw [Tycoon.dget_derase_ne m.edges eid k hk] at h
      have hr := inv.refintE k e h
      refine ⟨hr.1, hr.2.1, ?_⟩
      intro hc
      rcases List.mem_cons.mp (hr.2.2 hc) with h1 | h1
      · exact absurd h1 hk
      · exact h1

theorem sinvE_fold {α : Type} {n : String} :
    ∀ (L : List String) (m : WorldMap α), SInvE n L m →
    SInvE n [] (L.foldl (fun mm eid => (mm.remove_edge eid).2) m) := by
  intro L
  induction L with
  | nil => intro m inv; exact inv
  | cons eid L ih =>
    intro m inv
    exact ih _ (sinvE_step inv)

theorem sinvE_done {α : Type} {n : String} {m : WorldMap α} (inv : SInvE n [] m) :
    SInv m ∧ ∀ k e, Tycoon.dget m.edges k = some e → e.connects n = false := by
  have hclean : ∀ k e, Tycoon.dget m.edges k = some e → e.connects n = false := by
    intro k e he
    cases hc : e.connects n
    · rfl
    · exact absurd ((inv.refintE k e he).2.2 hc) (List.not_mem_nil k)
  refine ⟨⟨inv.toSCore, ?_⟩, hclean⟩
  intro k e he
  have hr := inv.refintE k e he
  have hcn := hclean k e he
  have hnc : ¬ (n = e.from_node_id ∨ n = e.to_node_id) := by
    intro h
    rw [← Edge.connects_iff e n] at h
    rw [hcn] at h
    cases h
  constructor
  · rcases hr.1 with h | h
    · exact absurd (Or.inl h.symm) hnc
    · exact h
  · rcases hr.2.1 with h | h
    · exact absurd (Or.inr h.symm) hnc
    · exact h

/-- `remove_node` restores the full invariant, and afterwards no edge in the
edge mapping touches the removed node (vacuously also when the node was
absent, thanks to referential integrity). -/
theorem sinv_remove_node {α : Type} (nid : String) {m : WorldMap α} (inv : SInv m) :
    SInv (m.remove_node nid).2 ∧
    ∀ k e, Tycoon.dget (m.remove_node nid).2.edges k = some e → e.connects nid = false := by
  unfold WorldMap.remove_node
  cases hget : Tycoon.dget m.nodes nid with
  | none =>
    refine ⟨inv, ?_⟩
    intro k e he
    have hnm : Tycoon.dmem m.nodes nid = false := by
      rw [← Tycoon.dget_isSome_iff, hget]
      rfl
    have hr := inv.refint k e he
    cases hc : e.connects nid
    · rfl
    · exfalso
      rcases (Edge.connects_iff e nid).mp hc with h | h
      · rw [h, hr.1] at hnm
        cases hnm
      · rw [h, hr.2] at hnm
        cases hnm
  | some node =>
    simp only []
    have hE := sinvE_fold node.connected_edges _ (sinvE_init inv hget)
    exact ⟨(sinvE_done hE).1, (sinvE_done hE).2⟩

theorem sreach_sinv {α : Type} {m : WorldMap α} (h : SReach m) : SInv m := by
  induction h with
  | init map_id => exact sinv_make map_id
  | add_node nid x y ntype _ ih => exact sinv_add_node _ _ rfl ih
  | add_edge eid f t thr bid _ ih => exact sinv_add_edge _ _ ih
  | remove_node nid _ ih => exact (sinv_remove_node nid ih).1
  | remove_edge eid _ ih => exact sinv_remove_edge eid ih
  | clear_op _ ih => exact sinv_clear _ ih

theorem remove_node_fst {α : Type} (m : WorldMap α) (nid : String)
    (h : Tycoon.dmem m.nodes nid = true) : (m.remove_node nid).1 = true := by
  unfold WorldMap.remove_node
  cases hget : Tycoon.dget m.nodes nid with
  | none =>
    rw [← Tycoon.dget_isSome_iff, hget] at h
    cases h
  | some node => rfl

/-- A single Python call mutating an edge's flow. -/
inductive FlowOp where
  | addF (amount : ℚ)
  | removeF (amount : ℚ)
  | resetF
deriving DecidableEq

/-- Run one flow call (the Bool result of `add_flow` is discarded). -/
def runFlowOp {α : Type} (e : Edge α) : FlowOp → Edge α
  | FlowOp.addF a => (e.add_flow a).2
  | FlowOp.removeF a => e.remove_flow a
  | FlowOp.resetF => e.reset_flow

/-- Run a finite sequence of `add_flow`/`remove_flow`/`reset_flow` calls. -/
def runFlowOps {α : Type} (e : Edge α) (ops : List FlowOp) : Edge α :=
  ops.foldl runFlowOp e

/-- The amount passed to an op is nonnegative (`reset_flow` has none). -/
def FlowOp.nonneg : FlowOp → Prop
  | FlowOp.addF a => 0 ≤ a
  | FlowOp.removeF a => 0 ≤ a
  | FlowOp.resetF => True

instance : DecidablePred FlowOp.nonneg := by
  intro op
  cases op <;> simp [FlowOp.nonneg] <;> infer_instance

/-- The dictionary form of a systems `Node`. -/
structure SNodeRecord (α : Type) where
  id : Option String
  x : Option ℚ
  y : Option ℚ
  type : Option String
  properties : Option (Tycoon.Dict α)
  connected_edges : Option (List String)
deriving DecidableEq

/-- systems `Node.to_dict`. -/
def Node.to_dict {α : Type} (n : Node α) : SNodeRecord α :=
  ⟨some n.id, some n.x, some n.y, some n.type, some n.properties,
    some n.connected_edges⟩

/-- systems `Node.from_dict`: `id`, `x`, `y` required, the rest defaulted. -/
def Node.from_dict {α : Type} (data : SNodeRecord α) : Option (Node α) := do
  let nid ← data.id
  let x ← data.x
  let y ← data.y
  pure ⟨nid, x, y, data.type.getD "default", data.properties.getD [],
    data.connected_edges.getD []⟩

/-- The dictionary form of a systems `Edge`, `current_flow` included. -/
structure SEdgeRecord (α : Type) where
  id : Option String
  from_node_id : Option String
  to_node_id : Option String
  throughput : Option ℚ
  bidirectional : Option Bool
  current_flow : Option ℚ
  properties : Option (Tycoon.Dict α)
deriving DecidableEq

/-- systems `Edge.to_dict`. -/
def Edge.to_dict {α : Type} (e : Edge α) : SEdgeRecord α :=
  ⟨some e.id, some e.from_node_id, some e.to_node_id, some e.throughput,
    some e.bidirectional, some e.current_flow, some e.properties⟩

/-- systems `Edge.from_dict`. -/
def Edge.from_dict {α : Type} (data : SEdgeRecord α) : Option (Edge α) := do
  let eid ← data.id
  let f ← data.from_node_id
  let t ← data.to_node_id
  pure ⟨eid, f, t, data.throughput.getD 1, data.bidirectional.getD true,
    data.current_flow.getD 0, data.properties.getD []⟩

/-- The dictionary form of a systems `WorldMap`. -/
structure SWorldMapRecord (α : Type) where
  id : Option String
  nodes : Option (Tycoon.Dict (SNodeRecord α))
  edges : Option (Tycoon.Dict (SEdgeRecord α))
deriving DecidableEq

/-- systems `WorldMap.to_dict`. -/
def WorldMap.to_dict {α : Type} (m : WorldMap α) : SWorldMapRecord α :=
  ⟨some m.id, some (m.nodes.map (fun p => (p.1, p.2.to_dict))),
    some (m.edges.map (fun p => (p.1, p.2.to_dict)))⟩

/-- systems `WorldMap.from_dict`: iterates over the record values (nodes
first, then edges), keying each reconstructed object by its own id.  No
referential validation is performed. -/
def WorldMap.from_dict {α : Type} (data : SWorldMapRecord α) : Option (WorldMap α) := do
  let nodes ← (Tycoon.dvalues (data.nodes.getD [])).mapM Node.from_dict
  let edges ← (Tycoon.dvalues (data.edges.getD [])).mapM Edge.from_dict
  pure ⟨data.id.getD "default",
    Tycoon.dassign [] (nodes.map (fun nd => (nd.id, nd))),
    Tycoon.dassign [] (edges.map (fun e => (e.id, e)))⟩

end Systems

theorem mapM_isSome {β γ : Type} (f : β → Option γ) : ∀ l : List β,
    (l.mapM f).isSome = l.all (fun x => (f x).isSome) := by
  intro l
  induction l with
  | nil => rfl
  | cons a l ih =>
    rw [List.mapM_cons, List.all_cons, ← ih]
    cases f a with
    | none => rfl
    | some x =>
      cases l.mapM f with
      | none => rfl
      | some xs => rfl

namespace Entities

theorem node_from_to {α : Type} (n : Node α) : Node.from_dict n.to_dict = some n := rfl

theorem edge_from_to {α : Type} (e : Edge α) : Edge.from_dict e.to_dict = some e := rfl

theorem mapM_nodes_from_to {α : Type} : ∀ (l : List (String × Node α)),
    (l.map (fun p => (p.1, p.2.to_dict))).mapM
      (fun p => do
        let nd ← Node.from_dict p.2
        pure (p.1, nd)) = some l := by
  intro l
  induction l with
  | nil => rfl
  | cons p rest ih =>
    rw [List.map_cons, List.mapM_cons, ih]
    rfl

theorem mapM_edges_from_to {α : Type} : ∀ (l : List (String × Edge α)),
    (l.map (fun p => (p.1, p.2.to_dict))).mapM
      (fun p => do
        let e ← Edge.from_dict p.2
        pure (p.1, e)) = some l := by
  intro l
  induction l with
  | nil => rfl
  | cons p rest ih =>
    rw [List.map_cons, List.mapM_cons, ih]
    rfl

/-- The entities serialize/deserialize round trip is the identity (keys of a
Python dict are unique, hence the `Nodup` hypotheses). -/
theorem entities_from_to {α : Type} (m : WorldMap α)
    (hn : (m.nodes.map Prod.fst).Nodup) (he : (m.edges.map Prod.fst).Nodup) :
    WorldMap.from_dict m.to_dict = some m := by
  unfold WorldMap.to_dict WorldMap.from_dict
  simp only [Option.getD_some]
  rw [mapM_nodes_from_to, mapM_edges_from_to]
  simp [Tycoon.dassign_nil m.nodes hn, Tycoon.dassign_nil m.edges he]

/-- The required fields of an entities node record. -/
def NodeRecord.required_ok {α : Type} (r : NodeRecord α) : Bool :=
  r.node_id.isSome && r.x.isSome && r.y.isSome

/-- The required fields of an entities edge record. -/
def EdgeRecord.required_ok {α : Type} (r : EdgeRecord α) : Bool :=
  r.edge_id.isSome && r.from_node.isSome && r.to_node.isSome

theorem node_from_dict_isSome {α : Type} (r : NodeRecord α) :
    (Node.from_dict r).isSome = r.required_ok := by
  rcases r with ⟨nid, x, y, nm, pr⟩
  cases nid <;> cases x <;> cases y <;> rfl

theorem edge_from_dict_isSome {α : Type} (r : EdgeRecord α) :
    (Edge.from_dict r).isSome = r.required_ok := by
  rcases r with ⟨eid, f, t, th, bi, pr⟩
  cases eid <;> cases f <;> cases t <;> rfl

/-- Entities deserialization succeeds exactly when every record carries its
required fields; edge endpoints are never checked against the node set. -/
theorem entities_from_dict_isSome {α : Type} (data : WorldMapRecord α) :
    (WorldMap.from_dict data).isSome =
      ((data.nodes.getD []).all (fun p => p.2.required_ok) &&
        (data.edges.getD []).all (fun p => p.2.required_ok)) := by
  have hsplit : (WorldMap.from_dict data).isSome =
      (((data.nodes.getD []).mapM (fun (p : String × NodeRecord α) => do
          let nd ← Node.from_dict p.2
          pure (p.1, nd))).isSome &&
        ((data.edges.getD []).mapM (fun (p : String × EdgeRecord α) => do
          let e ← Edge.from_dict p.2
          pure (p.1, e))).isSome) := by
    unfold WorldMap.from_dict
    cases (data.nodes.getD []).mapM (fun (p : String × NodeRecord α) => do
        let nd ← Node.from_dict p.2
        pure (p.1, nd)) with
    | none => rfl
    | some ns =>
      cases (data.edges.getD []).mapM (fun (p : String × EdgeRecord α) => do
          let e ← Edge.from_dict p.2
          pure (p.1, e)) with
      | none => rfl
      | some es => rfl
  have hfunN : (fun (p : String × NodeRecord α) => ((do
      let nd ← Node.from_dict p.2
      pure (p.1, nd) : Option (String × Node α))).isSome) =
      fun p => p.2.required_ok := by
    funext p
    rw [← node_from_dict_isSome p.2]
    cases Node.from_dict p.2 <;> rfl
  have hfunE : (fun (p : String × EdgeRecord α) => ((do
      let e ← Edge.from_dict p.2
      pure (p.1, e) : Option (String × Edge α))).isSome) =
      fun p => p.2.required_ok := by
    funext p
    rw [← edge_from_dict_isSome p.2]
    cases Edge.from_dict p.2 <;> rfl
  rw [hsplit, mapM_isSome, mapM_isSome, hfunN, hfunE]

end Entities

namespace Systems

theorem s_node_from_to {α : Type} (n : Node α) : Node.from_dict n.to_dict = some n := rfl

theorem s_edge_from_to {α : Type} (e : Edge α) : Edge.from_dict e.to_dict = some e := rfl

theorem mapM_values_nodes {α : Type} : ∀ (l : List (String × Node α)),
    (Tycoon.dvalues (l.map (fun p => (p.1, p.2.to_dict)))).mapM Node.from_dict =
      some (l.map Prod.snd) := by
  intro l
  induction l with
  | nil => rfl
  | cons p rest ih =>
    rw [show Tycoon.dvalues ((p :: rest).map (fun p => (p.1, p.2.to_dict))) =
      p.2.to_dict :: Tycoon.dvalues (rest.map (fun p => (p.1, p.2.to_dict))) from rfl]
    rw [List.mapM_cons, ih]
    rfl

theorem mapM_values_edges {α : Type} : ∀ (l : List (String × Edge α)),
    (Tycoon.dvalues (l.map (fun p => (p.1, p.2.to_dict)))).mapM Edge.from_dict =
      some (l.map Prod.snd) := by
  intro l
  induction l with
  | nil => rfl
  | cons p rest ih =>
    rw [show Tycoon.dvalues ((p :: rest).map (fun p => (p.1, p.2.to_dict))) =
      p.2.to_dict :: Tycoon.dvalues (rest.map (fun p => (p.1, p.2.to_dict))) from rfl]
    rw [List.mapM_cons, ih]
    rfl

theorem map_keyid_nodes {α : Type} : ∀ (l : List (String × Node α)),
    (∀ p ∈ l, p.2.id = p.1) →
    ((l.map Prod.snd).map (fun nd => (nd.id, nd))) = l := by
  intro l
  induction l with
  | nil => intro _; rfl
  | cons p rest ih =>
    intro h
    simp only [List.map_cons]
    rw [ih (fun q hq => h q (List.mem_cons_of_mem _ hq))]
    rw [h p (List.mem_cons_self _ _)]

theorem map_keyid_edges {α : Type} : ∀ (l : List (String × Edge α)),
    (∀ p ∈ l, p.2.id = p.1) →
    ((l.map Prod.snd).map (fun e => (e.id, e))) = l := by
  intro l
  induction l with
  | nil => intro _; rfl
  | cons p rest ih =>
    intro h
    simp only [List.map_cons]
    rw [ih (fun q hq => h q (List.mem_cons_of_mem _ hq))]
    rw [h p (List.mem_cons_self _ _)]

/-- The systems serialize/deserialize round trip is the identity on maps
whose dictionary keys are unique and agree with the stored node/edge ids
(both facts hold for every map built through the public API). -/
theorem systems_from_to {α : Type} (m : WorldMap α)
    (hn : (m.nodes.map Prod.fst).Nodup) (he : (m.edges.map Prod.fst).Nodup)
    (hnid : ∀ p ∈ m.nodes, p.2.id = p.1) (heid : ∀ p ∈ m.edges, p.2.id = p.1) :
    WorldMap.from_dict m.to_dict = some m := by
  unfold WorldMap.to_dict WorldMap.from_dict
  simp only [Option.getD_some]
  rw [mapM_values_nodes, mapM_values_edges]
  show some _ = some m
  rw [map_keyid_nodes m.nodes hnid, map_keyid_edges m.edges heid,
    Tycoon.dassign_nil m.nodes hn, Tycoon.dassign_nil m.edges he]

/-- The required fields of a systems node record. -/
def SNodeRecord.required_ok {α : Type} (r : SNodeRecord α) : Bool :=
  r.id.isSome && r.x.isSome && r.y.isSome

/-- The required fields of a systems edge record. -/
def SEdgeRecord.required_ok {α : Type} (r : SEdgeRecord α) : Bool :=
  r.id.isSome && r.from_node_id.isSome && r.to_node_id.isSome

theorem s_node_from_dict_isSome {α : Type} (r : SNodeRecord α) :
    (Node.from_dict r).isSome = r.required_ok := by
  rcases r with ⟨nid, x, y, ty, pr, ce⟩
  cases nid <;> cases x <;> cases y <;> rfl

theorem s_edge_from_dict_isSome {α : Type} (r : SEdgeRecord α) :
    (Edge.from_dict r).isSome = r.required_ok := by
  rcases r with ⟨eid, f, t, th, bi, cf, pr⟩
  cases eid <;> cases f <;> cases t <;> rfl

/-- Systems deserialization succeeds exactly when every record carries its
required fields; edge endpoints are never checked against the node set. -/
theorem systems_from_dict_isSome {α : Type} (data : SWorldMapRecord α) :
    (WorldMap.from_dict data).isSome =
      ((Tycoon.dvalues (data.nodes.getD [])).all (fun r => r.required_ok) &&
        (Tycoon.dvalues (data.edges.getD [])).all (fun r => r.required_ok)) := by
  have hsplit : (WorldMap.from_dict data).isSome =
      (((Tycoon.dvalues (data.nodes.getD [])).mapM Node.from_dict).isSome &&
        ((Tycoon.dvalues (data.edges.getD [])).mapM Edge.from_dict).isSome) := by
    unfold WorldMap.from_dict
    cases (Tycoon.dvalues (data.nodes.getD [])).mapM Node.from_dict with
    | none => rfl
    | some ns =>
      cases (Tycoon.dvalues (data.edges.getD [])).mapM Edge.from_dict with
      | none => rfl
      | some es => rfl
  have hfunN : (fun (r : SNodeRecord α) => (Node.from_dict r).isSome) =
      fun r => r.required_ok := by
    funext r
    rw [s_node_from_dict_isSome]
  have hfunE : (fun (r : SEdgeRecord α) => (Edge.from_dict r).isSome) =
      fun r => r.required_ok := by
    funext r
    rw [s_edge_from_dict_isSome]
  rw [hsplit, mapM_isSome, mapM_isSome, hfunN, hfunE]

/-- The incidence caches agree with the edge mapping: claim C4's property. -/
def CacheConsistent {α : Type} (m : WorldMap α) : Prop :=
  ∀ p ∈ m.nodes, ∀ eid,
    eid ∈ p.2.connected_edges ↔
      eid ∈ (m.edges.filter (fun q => q.2.connects p.2.id)).map Prod.fst

end Systems

namespace Tycoon

theorem mem_foldl_derase {τ : Type} :
    ∀ (L : List String) (d : Dict τ) (p : String × τ),
    p ∈ L.foldl (fun es k => derase es k) d ↔ p ∈ d ∧ p.1 ∉ L := by
  intro L
  induction L with
  | nil => intro d p; simp
  | cons k L ih =>
    intro d p
    rw [List.foldl_cons, ih (derase d k) p, mem_derase]
    simp only [List.mem_cons]
    tauto

end Tycoon

theorem flow_step_inv {α : Type} (e : Systems.Edge α) (op : Systems.FlowOp)
    (h1 : 0 ≤ e.current_flow) (h2 : e.current_flow ≤ e.throughput)
    (hop : op.nonneg) :
    0 ≤ (Systems.runFlowOp e op).current_flow ∧
    (Systems.runFlowOp e op).current_flow ≤ (Systems.runFlowOp e op).throughput := by
  cases op with
  | addF a =>
    cases hca : e.can_accommodate a with
    | false =>
      simp only [Systems.runFlowOp, Systems.Edge.add_flow, hca]
      exact ⟨h1, h2⟩
    | true =>
      simp only [Systems.runFlowOp, Systems.Edge.add_flow, hca, if_true]
      have hle : e.current_flow + a ≤ e.throughput := by
        rw [Systems.Edge.can_accommodate] at hca
        exact of_decide_eq_true hca
      have ha : (0 : ℚ) ≤ a := hop
      exact ⟨add_nonneg h1 ha, hle⟩
  | removeF a =>
    simp only [Systems.runFlowOp, Systems.Edge.remove_flow]
    refine ⟨le_max_left 0 _, ?_⟩
    have ha : (0 : ℚ) ≤ a := hop
    have : max 0 (e.current_flow - a) ≤ e.current_flow :=
      max_le h1 (sub_le_self _ ha)
    exact this.trans h2
  | resetF =>
    exact ⟨le_refl 0, h1.trans h2⟩

theorem flow_run_inv {α : Type} :
    ∀ (ops : List Systems.FlowOp) (e : Systems.Edge α),
    0 ≤ e.current_flow → e.current_flow ≤ e.throughput →
    (∀ op ∈ ops, op.nonneg) →
    0 ≤ (Systems.runFlowOps e ops).current_flow ∧
    (Systems.runFlowOps e ops).current_flow ≤ (Systems.runFlowOps e ops).throughput := by
  intro ops
  induction ops with
  | nil => intro e h1 h2 _; exact ⟨h1, h2⟩
  | cons op ops ih =>
    intro e h1 h2 hops
    have hstep := flow_step_inv e op h1 h2 (hops op (List.mem_cons_self _ _))
    exact ih _ hstep.1 hstep.2 (fun o ho => hops o (List.mem_cons_of_mem _ ho))

/-! ### Concrete objects used by the witnesses and counterexamples -/

/-- A three-node chain a — b — c with two bidirectional edges. -/
def C1Map : Entities.WorldMap String :=
  ⟨[("a", ⟨"a", 0, 0, none, []⟩), ("b", ⟨"b", 1, 0, none, []⟩), ("c", ⟨"c", 2, 0, none, []⟩)],
   [("e1", ⟨"e1", "a", "b", 1, true, []⟩), ("e2", ⟨"e2", "b", "c", 1, true, []⟩)],
   3, 2⟩

/-- A systems edge with throughput 1 and no flow. -/
def C2Edge : Systems.Edge String := ⟨"e1", "a", "b", 1, true, 0, []⟩

/-- A reachable systems map: two nodes joined by one edge. -/
def C4Map : Systems.WorldMap String :=
  ((((Systems.WorldMap.make String "w").add_node
      (Systems.Node.make String "a" 0 0 "default")).2.add_node
      (Systems.Node.make String "b" 1 0 "default")).2.add_edge
      (Systems.Edge.make String "e1" "a" "b" 1 true)).2

theorem C4Map_reachable : Systems.SReach C4Map :=
  Systems.SReach.add_edge "e1" "a" "b" 1 true
    (Systems.SReach.add_node "b" 1 0 "default"
      (Systems.SReach.add_node "a" 0 0 "default"
        (Systems.SReach.init "w")))

/-- A unidirectional self-loop edge (systems variant). -/
def C6Loop : Systems.Edge String := ⟨"e", "a", "a", 1, false, 0, []⟩

/-- An entities map holding one node with id "a" at the origin. -/
def C7Map : Entities.WorldMap String :=
  ((Entities.WorldMap.empty String).add_node 0 0 none (some "a") []).2

/-- A systems serialization record holding one edge record whose endpoints
name nodes absent from the (empty) node record mapping. -/
def C9Rec : Systems.SWorldMapRecord String :=
  ⟨some "w", some [],
    some [("e1", ⟨some "e1", some "a", some "b", some 1, some true, some 0, some []⟩)]⟩

/-- An entities map where an edge leads into a node whose id is the empty
string and another edge leads from it onwards. -/
def C10Map : Entities.WorldMap String :=
  ⟨[("a", ⟨"a", 0, 0, none, []⟩), ("b", ⟨"b", 1, 0, none, []⟩), ("", ⟨"", 2, 0, none, []⟩)],
   [("e1", ⟨"e1", "a", "", 1, true, []⟩), ("e2", ⟨"e2", "", "b", 1, true, []⟩)],
   0, 0⟩

/-! ### The claims -/

/-- C1: in the entities `WorldMap`, `find_path x x = some [x]` whenever `x`
is a node of the map; `find_path` returns `none` when either id is absent;
and when both ids are present, every returned path is a neighbour chain from
`fromN` to `toN` of minimal edge count, and `none` is returned exactly when
no walk exists. -/
theorem claim1_find_path_bfs {α : Type} (m : Entities.WorldMap α) (fromN toN : String) :
    (Tycoon.dmem m.nodes fromN = true → m.find_path fromN fromN = some [fromN]) ∧
    ((Tycoon.dmem m.nodes fromN = false ∨ Tycoon.dmem m.nodes toN = false) →
      m.find_path fromN toN = none) ∧
    (Tycoon.dmem m.nodes fromN = true → Tycoon.dmem m.nodes toN = true →
      (∀ p, m.find_path fromN toN = some p →
        p.head? = some fromN ∧ p.getLast? = some toN ∧
        List.Chain' (Entities.Nbr m) p ∧ Entities.MinDist m fromN toN (p.length - 1)) ∧
      (m.find_path fromN toN = none ↔ ¬ Entities.Reachable m fromN toN)) := by
  refine ⟨fun h => Entities.find_path_refl h, fun h => Entities.find_path_absent h,
    fun h1 h2 => ⟨fun p hp => Entities.find_path_sound hp, Entities.find_path_none_iff h1 h2⟩⟩

theorem claim1_witness :
    C1Map.find_path "a" "a" = some ["a"] ∧
    C1Map.find_path "a" "zzz" = none ∧
    (C1Map.find_path "a" "c" = none ↔ ¬ Entities.Reachable C1Map "a" "c") :=
  ⟨(claim1_find_path_bfs C1Map "a" "a").1 (by decide),
   (claim1_find_path_bfs C1Map "a" "zzz").2.1 (Or.inr (by decide)),
   ((claim1_find_path_bfs C1Map "a" "c").2.2 (by decide) (by decide)).2⟩

/-- C2 counterexample: the claim fails as stated for arbitrary real amounts.
Starting from flow 0 on an edge of throughput 1 ≥ 0, the single call
`add_flow (-5)` passes `can_accommodate` and drives `current_flow` to −5,
violating `0 ≤ current_flow`. -/
theorem claim2_counterexample :
    C2Edge.current_flow = 0 ∧ 0 ≤ C2Edge.throughput ∧
    ¬ (0 ≤ (Systems.runFlowOps C2Edge [Systems.FlowOp.addF (-5)]).current_flow ∧
        (Systems.runFlowOps C2Edge [Systems.FlowOp.addF (-5)]).current_flow ≤
          (Systems.runFlowOps C2Edge [Systems.FlowOp.addF (-5)]).throughput) := by
  refine ⟨rfl, by norm_num [C2Edge], ?_⟩
  intro h
  have := h.1
  norm_num [Systems.runFlowOps, Systems.runFlowOp, Systems.Edge.add_flow,
    Systems.Edge.can_accommodate, C2Edge] at this

/-- C2 amended: for an edge with `current_flow` in `[0, throughput]`
initially (in particular a fresh edge with flow 0 and throughput ≥ 0), after
any finite sequence of `add_flow`/`remove_flow`/`reset_flow` calls whose
amounts are all nonnegative, `0 ≤ current_flow ≤ throughput` holds.  (With a
negative amount, `add_flow` can drive the flow below 0 and `remove_flow`
can drive it above `throughput`.) -/
theorem claim2_flow_invariant {α : Type} (e : Systems.Edge α)
    (ops : List Systems.FlowOp) (h1 : 0 ≤ e.current_flow)
    (h2 : e.current_flow ≤ e.throughput)
    (hops : ∀ op ∈ ops, op.nonneg) :
    0 ≤ (Systems.runFlowOps e ops).current_flow ∧
    (Systems.runFlowOps e ops).current_flow ≤ (Systems.runFlowOps e ops).throughput :=
  flow_run_inv ops e h1 h2 hops

theorem claim2_witness :
    0 ≤ (Systems.runFlowOps C2Edge
        [Systems.FlowOp.addF 1, Systems.FlowOp.removeF 2, Systems.FlowOp.resetF,
          Systems.FlowOp.addF (1/2)]).current_flow ∧
    (Systems.runFlowOps C2Edge
        [Systems.FlowOp.addF 1, Systems.FlowOp.removeF 2, Systems.FlowOp.resetF,
          Systems.FlowOp.addF (1/2)]).current_flow ≤
      (Systems.runFlowOps C2Edge
        [Systems.FlowOp.addF 1, Systems.FlowOp.removeF 2, Systems.FlowOp.resetF,
          Systems.FlowOp.addF (1/2)]).throughput :=
  claim2_flow_invariant C2Edge _ (by norm_num [C2Edge]) (by norm_num [C2Edge])
    (by intro op hop; fin_cases hop <;> norm_num [Systems.FlowOp.nonneg])

/-- C5: `add_flow` returns `can_accommodate amount` (true exactly when
`current_flow + amount ≤ throughput`); on success it increments
`current_flow` by the amount and changes nothing else, on failure it leaves
the edge entirely unchanged. -/
theorem claim5_add_flow {α : Type} (e : Systems.Edge α) (a : ℚ) :
    ((e.add_flow a).1 = e.can_accommodate a) ∧
    (e.can_accommodate a = true ↔ e.current_flow + a ≤ e.throughput) ∧
    (e.can_accommodate a = true →
      (e.add_flow a).2 = { e with current_flow := e.current_flow + a }) ∧
    (e.can_accommodate a = false → (e.add_flow a).2 = e) := by
  refine ⟨?_, ?_, ?_, ?_⟩
  · cases hca : e.can_accommodate a
    · simp only [Systems.Edge.add_flow, hca]
      rfl
    · simp only [Systems.Edge.add_flow, hca]
      rfl
  · rw [Systems.Edge.can_accommodate]
    exact decide_eq_true_iff
  · intro h
    simp only [Systems.Edge.add_flow, h, if_true]
  · intro h
    simp only [Systems.Edge.add_flow, h]
    rfl

theorem claim5_witness :
    ((C2Edge.add_flow 2).1 = C2Edge.can_accommodate 2) ∧
    (C2Edge.can_accommodate 2 = true ↔ C2Edge.current_flow + 2 ≤ C2Edge.throughput) ∧
    (C2Edge.can_accommodate 2 = true →
      (C2Edge.add_flow 2).2 = { C2Edge with current_flow := C2Edge.current_flow + 2 }) ∧
    (C2Edge.can_accommodate 2 = false → (C2Edge.add_flow 2).2 = C2Edge) :=
  claim5_add_flow C2Edge 2

/-- C6 counterexample: for a self-loop edge (`from = to = "a"`) with
`bidirectional = false`, the claim demands `get_other_node "a" = none`
(query at `B` on a non-bidirectional edge), but the code returns
`some "a"` through the `from` branch. -/
theorem claim6_counterexample :
    C6Loop.from_node_id = "a" ∧ C6Loop.to_node_id = "a" ∧
    C6Loop.bidirectional = false ∧ ¬ (C6Loop.get_other_node "a" = none) := by
  refine ⟨rfl, rfl, rfl, ?_⟩
  intro h
  rw [show C6Loop.get_other_node "a" = some "a" from rfl] at h
  cases h

/-- C6 amended: for an edge from `A` to `B` with `A ≠ B` (the claim as
stated fails on self-loops): `get_other_node A = some B` regardless of the
flag; `get_other_node B` is `some A` iff the edge is bidirectional, else
`none`; and any other id yields `none`.  The same holds for the entities
variant's `other_node`. -/
theorem claim6_get_other_node {α : Type} :
    (∀ (e : Systems.Edge α) (A B : String), e.from_node_id = A → e.to_node_id = B →
      (e.get_other_node A = some B) ∧
      (A ≠ B → e.bidirectional = true → e.get_other_node B = some A) ∧
      (A ≠ B → e.bidirectional = false → e.get_other_node B = none) ∧
      (∀ n, n ≠ A → n ≠ B → e.get_other_node n = none)) ∧
    (∀ (e : Entities.Edge α) (A B : String), e.from_node = A → e.to_node = B →
      (e.other_node A = some B) ∧
      (A ≠ B → e.bidirectional = true → e.other_node B = some A) ∧
      (A ≠ B → e.bidirectional = false → e.other_node B = none) ∧
      (∀ n, n ≠ A → n ≠ B → e.other_node n = none)) := by
  constructor
  · intro e A B hA hB
    refine ⟨?_, ?_, ?_, ?_⟩
    · rw [Systems.Edge.get_other_node, if_pos hA.symm, hB]
    · intro hAB hbid
      have hBA : ¬ B = e.from_node_id := by rw [hA]; exact fun h => hAB h.symm
      rw [Systems.Edge.get_other_node, if_neg hBA, if_pos hB.symm, if_pos hbid, hA]
    · intro hAB hbid
      have hBA : ¬ B = e.from_node_id := by rw [hA]; exact fun h => hAB h.symm
      rw [Systems.Edge.get_other_node, if_neg hBA, if_pos hB.symm, hbid]
      simp
    · intro n hnA hnB
      have h1 : ¬ n = e.from_node_id := by rw [hA]; exact hnA
      have h2 : ¬ n = e.to_node_id := by rw [hB]; exact hnB
      rw [Systems.Edge.get_other_node, if_neg h1, if_neg h2]
  · intro e A B hA hB
    refine ⟨?_, ?_, ?_, ?_⟩
    · rw [Entities.Edge.other_node, if_pos hA.symm, hB]
    · intro hAB hbid
      have hBA : ¬ B = e.from_node := by rw [hA]; exact fun h => hAB h.symm
      rw [Entities.Edge.other_node, if_neg hBA, if_pos ⟨hB.symm, hbid⟩, hA]
    · intro hAB hbid
      have hBA : ¬ B = e.from_node := by rw [hA]; exact fun h => hAB h.symm
      rw [Entities.Edge.other_node, if_neg hBA, if_neg ?_]
      intro hand
      rw [hand.2] at hbid
      cases hbid
    · intro n hnA hnB
      have h1 : ¬ n = e.from_node := by rw [hA]; exact hnA
      have h2 : ¬ (n = e.to_node ∧ e.bidirectional = true) := by
        rw [hB]
        exact fun h => hnB h.1
      rw [Entities.Edge.other_node, if_neg h1, if_neg h2]

theorem claim6_witness :
    ((⟨"e", "a", "b", 1, false, 0, []⟩ : Systems.Edge String).get_other_node "a" = some "b") ∧
    ((⟨"e", "a", "b", 1, false, 0, []⟩ : Systems.Edge String).get_other_node "b" = none) ∧
    ((⟨"e", "a", "b", 1, false, 0, []⟩ : Systems.Edge String).get_other_node "z" = none) := by
  have h := (claim6_get_other_node (α := String)).1
    (⟨"e", "a", "b", 1, false, 0, []⟩ : Systems.Edge String) "a" "b" rfl rfl
  exact ⟨h.1, h.2.2.1 (by decide) rfl, h.2.2.2 "z" (by decide) (by decide)⟩

/-- C7 counterexample: in the entities variant, `add_node` with an id
already present does not fail — it silently replaces the stored node (here
the node at (0,0) is replaced by one at (1,1)). -/
theorem claim7_counterexample :
    Tycoon.dmem C7Map.nodes "a" = true ∧
    Tycoon.dget ((C7Map.add_node 1 1 none (some "a") []).2).nodes "a" ≠
      Tycoon.dget C7Map.nodes "a" := by
  constructor
  · rfl
  · intro h
    rw [show Tycoon.dget ((C7Map.add_node 1 1 none (some "a") []).2).nodes "a" =
        some ⟨"a", 1, 1, none, []⟩ from rfl,
      show Tycoon.dget C7Map.nodes "a" = some ⟨"a", 0, 0, none, []⟩ from rfl] at h
    injection h with h
    have := congrArg Entities.Node.x h
    norm_num at this

/-- C7 amended: in the systems variant, `add_node`/`add_edge` with an id
already present return false and leave the map unchanged, and in both
variants `remove_node`/`remove_edge` on an absent id return false and leave
the map unchanged.  (The entities variant's `add_node`/`add_edge` do not
reject duplicates: they overwrite the stored entry, as the counterexample
shows.) -/
theorem claim7_duplicates_and_removal {α : Type} :
    (∀ (m : Systems.WorldMap α) (node : Systems.Node α),
      Tycoon.dmem m.nodes node.id = true → m.add_node node = (false, m)) ∧
    (∀ (m : Systems.WorldMap α) (edge : Systems.Edge α),
      Tycoon.dmem m.edges edge.id = true → m.add_edge edge = (false, m)) ∧
    (∀ (m : Systems.WorldMap α) (nid : String),
      Tycoon.dmem m.nodes nid = false → m.remove_node nid = (false, m)) ∧
    (∀ (m : Systems.WorldMap α) (eid : String),
      Tycoon.dmem m.edges eid = false → m.remove_edge eid = (false, m)) ∧
    (∀ (m : Entities.WorldMap α) (nid : String),
      Tycoon.dmem m.nodes nid = false → m.remove_node nid = (false, m)) ∧
    (∀ (m : Entities.WorldMap α) (eid : String),
      Tycoon.dmem m.edges eid = false → m.remove_edge eid = (false, m)) := by
  refine ⟨?_, ?_, ?_, ?_, ?_, ?_⟩
  · intro m node h
    rw [Systems.WorldMap.add_node, if_pos h]
  · intro m edge h
    rw [Systems.WorldMap.add_edge, if_pos h]
  · intro m nid h
    rw [Systems.WorldMap.remove_node,
      Tycoon.dget_none_of_dmem_false h]
  · intro m eid h
    rw [Systems.WorldMap.remove_edge,
      Tycoon.dget_none_of_dmem_false h]
  · intro m nid h
    rw [Entities.WorldMap.remove_node, if_neg (by simp [h])]
  · intro m eid h
    rw [Entities.WorldMap.remove_edge, if_neg (by simp [h])]

theorem claim7_witness :
    C4Map.add_node (Systems.Node.make String "a" 5 5 "city") = (false, C4Map) ∧
    C4Map.add_edge (Systems.Edge.make String "e1" "a" "b" 2 true) = (false, C4Map) ∧
    C4Map.remove_node "zzz" = (false, C4Map) ∧
    C4Map.remove_edge "zzz" = (false, C4Map) ∧
    C7Map.remove_node "zzz" = (false, C7Map) ∧
    C7Map.remove_edge "zzz" = (false, C7Map) :=
  ⟨(claim7_duplicates_and_removal).1 C4Map _ (by decide),
   (claim7_duplicates_and_removal).2.1 C4Map _ (by decide),
   (claim7_duplicates_and_removal).2.2.1 C4Map "zzz" (by decide),
   (claim7_duplicates_and_removal).2.2.2.1 C4Map "zzz" (by decide),
   (claim7_duplicates_and_removal).2.2.2.2.1 C7Map "zzz" (by decide),
   (claim7_duplicates_and_removal).2.2.2.2.2 C7Map "zzz" (by decide)⟩

/-- C3: removing a present node succeeds and leaves no edge connecting it
(unconditionally in the entities variant; in the systems variant — whose
removal walks the node's incidence cache — for every state reachable through
the public operations); in reachable systems states every edge's endpoints
are keys of the node mapping; and `add_edge` is rejected in both variants
when an endpoint is absent. -/
theorem claim3_remove_node_integrity {α : Type} :
    (∀ (m : Entities.WorldMap α) (n : String), Tycoon.dmem m.nodes n = true →
      (m.remove_node n).1 = true ∧
      ∀ e ∈ (m.remove_node n).2.get_all_edges, e.connects n = false) ∧
    (∀ (m : Entities.WorldMap α) (f t : String) (thr : ℚ) (bid : Bool)
      (eid : Option String) (props : Tycoon.Dict α),
      (Tycoon.dmem m.nodes f = false ∨ Tycoon.dmem m.nodes t = false) →
      m.add_edge f t thr bid eid props = (none, m)) ∧
    (∀ (m : Systems.WorldMap α), Systems.SReach m →
      (∀ n, Tycoon.dmem m.nodes n = true → (m.remove_node n).1 = true) ∧
      (∀ n, ∀ e ∈ (m.remove_node n).2.get_all_edges, e.connects n = false) ∧
      (∀ e ∈ m.get_all_edges, Tycoon.dmem m.nodes e.from_node_id = true ∧
        Tycoon.dmem m.nodes e.to_node_id = true)) ∧
    (∀ (m : Systems.WorldMap α) (edge : Systems.Edge α),
      (Tycoon.dmem m.nodes edge.from_node_id = false ∨
        Tycoon.dmem m.nodes edge.to_node_id = false) →
      m.add_edge edge = (false, m)) := by
  refine ⟨?_, ?_, ?_, ?_⟩
  · intro m n h
    unfold Entities.WorldMap.remove_node
    rw [if_pos h]
    refine ⟨rfl, ?_⟩
    intro e he
    unfold Entities.WorldMap.get_all_edges Tycoon.dvalues at he
    rcases List.mem_map.mp he with ⟨p, hp, rfl⟩
    rw [Tycoon.mem_foldl_derase] at hp
    cases hc : p.2.connects n
    · rfl
    · exact absurd (List.mem_map.mpr ⟨p, List.mem_filter.mpr ⟨hp.1, hc⟩, rfl⟩) hp.2
  · intro m f t thr bid eid props h
    unfold Entities.WorldMap.add_edge
    rw [if_pos ?_]
    rcases h with h | h
    · exact Or.inl (by simp [h])
    · exact Or.inr (by simp [h])
  · intro m hre
    have inv := Systems.sreach_sinv hre
    refine ⟨fun n h => Systems.remove_node_fst m n h, ?_, ?_⟩
    · intro n e he
      have hrn := Systems.sinv_remove_node n inv
      unfold Systems.WorldMap.get_all_edges Tycoon.dvalues at he
      rcases List.mem_map.mp he with ⟨p, hp, rfl⟩
      have hdg : Tycoon.dget (m.remove_node n).2.edges p.1 = some p.2 :=
        (Tycoon.mem_iff_dget hrn.1.ednodup p).mp hp
      exact hrn.2 p.1 p.2 hdg
    · intro e he
      unfold Systems.WorldMap.get_all_edges Tycoon.dvalues at he
      rcases List.mem_map.mp he with ⟨p, hp, rfl⟩
      exact inv.refint p.1 p.2 ((Tycoon.mem_iff_dget inv.ednodup p).mp hp)
  · intro m edge h
    unfold Systems.WorldMap.add_edge
    by_cases hdup : Tycoon.dmem m.edges edge.id
    · rw [if_pos hdup]
    · rw [if_neg hdup, if_pos ?_]
      rcases h with h | h
      · exact Or.inl (by simp [h])
      · exact Or.inr (by simp [h])

theorem claim3_witness :
    ((C1Map.remove_node "b").1 = true ∧
      ∀ e ∈ (C1Map.remove_node "b").2.get_all_edges, e.connects "b" = false) ∧
    ((C4Map.remove_node "a").1 = true) ∧
    (∀ e ∈ (C4Map.remove_node "a").2.get_all_edges, e.connects "a" = false) ∧
    (∀ e ∈ C4Map.get_all_edges, Tycoon.dmem C4Map.nodes e.from_node_id = true ∧
      Tycoon.dmem C4Map.nodes e.to_node_id = true) ∧
    C4Map.add_edge (Systems.Edge.make String "e9" "a" "zzz" 1 true) = (false, C4Map) :=
  ⟨(claim3_remove_node_integrity (α := String)).1 C1Map "b" (by decide),
   ((claim3_remove_node_integrity (α := String)).2.2.1 C4Map C4Map_reachable).1 "a" (by decide),
   ((claim3_remove_node_integrity (α := String)).2.2.1 C4Map C4Map_reachable).2.1 "a",
   ((claim3_remove_node_integrity (α := String)).2.2.1 C4Map C4Map_reachable).2.2,
   (claim3_remove_node_integrity (α := String)).2.2.2 C4Map _ (Or.inr (by decide))⟩

/-- C4: in every reachable state of the systems `WorldMap`, each node's
incidence cache holds exactly the ids of the edges currently in the edge
mapping whose endpoints include the node's id. -/
theorem claim4_cache_consistency {α : Type} (m : Systems.WorldMap α)
    (h : Systems.SReach m) : Systems.CacheConsistent m := by
  have inv := Systems.sreach_sinv h
  intro p hp eid
  have hget := (Tycoon.mem_iff_dget inv.nnodup p).mp hp
  rw [inv.cache p.1 p.2 hget eid]
  constructor
  · rintro ⟨e, he, hc⟩
    exact List.mem_map.mpr
      ⟨(eid, e), List.mem_filter.mpr ⟨Tycoon.dget_mem he, hc⟩, rfl⟩
  · intro hmem
    rcases List.mem_map.mp hmem with ⟨q, hq, hfst⟩
    have hq1 := List.mem_filter.mp hq
    refine ⟨q.2, ?_, hq1.2⟩
    rw [← hfst]
    exact (Tycoon.mem_iff_dget inv.ednodup q).mp hq1.1

theorem claim4_witness : Systems.CacheConsistent C4Map :=
  claim4_cache_consistency C4Map C4Map_reachable

/-- C8: in both variants, deserializing the serialized form of a map
reproduces the map exactly — same node and edge dictionaries (hence the same
id sets and all field values), same id counters where present — and
therefore `get_neighbors` and `find_path` answer identically on the
reconstruction.  The hypotheses state that the dictionary keys are unique
(true of every Python dict) and, for the systems variant, agree with the
stored ids (true of every map built through the public API, which keys
objects by their own id). -/
theorem claim8_roundtrip {α : Type} :
    (∀ m : Entities.WorldMap α, (m.nodes.map Prod.fst).Nodup →
      (m.edges.map Prod.fst).Nodup →
      Entities.WorldMap.from_dict m.to_dict = some m ∧
      ∀ m', Entities.WorldMap.from_dict m.to_dict = some m' →
        m'.nodes = m.nodes ∧ m'.edges = m.edges ∧
        m'.next_node_id = m.next_node_id ∧ m'.next_edge_id = m.next_edge_id ∧
        (∀ a b, m'.find_path a b = m.find_path a b) ∧
        (∀ x, m'.get_neighbors x = m.get_neighbors x)) ∧
    (∀ m : Systems.WorldMap α, (m.nodes.map Prod.fst).Nodup →
      (m.edges.map Prod.fst).Nodup → (∀ p ∈ m.nodes, p.2.id = p.1) →
      (∀ p ∈ m.edges, p.2.id = p.1) →
      Systems.WorldMap.from_dict m.to_dict = some m ∧
      ∀ m', Systems.WorldMap.from_dict m.to_dict = some m' →
        m'.nodes = m.nodes ∧ m'.edges = m.edges ∧
        (∀ x, m'.get_neighbors x = m.get_neighbors x)) := by
  constructor
  · intro m hn he
    have hrt := Entities.entities_from_to m hn he
    refine ⟨hrt, ?_⟩
    intro m' hm'
    rw [hrt] at hm'
    injection hm' with hm'
    subst hm'
    exact ⟨rfl, rfl, rfl, rfl, fun a b => rfl, fun x => rfl⟩
  · intro m hn he hnid heid
    have hrt := Systems.systems_from_to m hn he hnid heid
    refine ⟨hrt, ?_⟩
    intro m' hm'
    rw [hrt] at hm'
    injection hm' with hm'
    subst hm'
    exact ⟨rfl, rfl, fun x => rfl⟩

theorem claim8_witness :
    Entities.WorldMap.from_dict C1Map.to_dict = some C1Map ∧
    Systems.WorldMap.from_dict C4Map.to_dict = some C4Map :=
  ⟨((claim8_roundtrip (α := String)).1 C1Map (by decide) (by decide)).1,
   ((claim8_roundtrip (α := String)).2 C4Map (by decide) (by decide) (by decide)
     (by decide)).1⟩

/-- C9 counterexample: the claim fails as stated.  Deserializing a record
set with an empty node mapping and one edge record naming nodes "a"/"b"
succeeds (no error is reported through the return value) and produces a
WorldMap whose edge references nodes absent from its node mapping. -/
theorem claim9_counterexample :
    Systems.WorldMap.from_dict C9Rec =
      some ⟨"w", [], [("e1", ⟨"e1", "a", "b", 1, true, 0, []⟩)]⟩ ∧
    Tycoon.dget (⟨"w", [], [("e1", ⟨"e1", "a", "b", 1, true, 0, []⟩)]⟩ :
      Systems.WorldMap String).edges "e1" = some ⟨"e1", "a", "b", 1, true, 0, []⟩ ∧
    Tycoon.dmem (⟨"w", [], [("e1", ⟨"e1", "a", "b", 1, true, 0, []⟩)]⟩ :
      Systems.WorldMap String).nodes "a" = false :=
  ⟨rfl, rfl, rfl⟩

/-- C9 amended: deserialization performs no cross-referential validation.
In both variants `from_dict` succeeds exactly when every node/edge record
carries its required fields — a predicate that never inspects whether edge
endpoints resolve to nodes — so a record set with dangling edge endpoints
deserializes into a partially-valid map, and a record missing a required
field propagates a raised `KeyError` (modelled as `none`) rather than an
error value. -/
theorem claim9_no_validation {α : Type} :
    (∀ data : Entities.WorldMapRecord α,
      (Entities.WorldMap.from_dict data).isSome =
        ((data.nodes.getD []).all (fun p => p.2.required_ok) &&
          (data.edges.getD []).all (fun p => p.2.required_ok))) ∧
    (∀ data : Systems.SWorldMapRecord α,
      (Systems.WorldMap.from_dict data).isSome =
        ((Tycoon.dvalues (data.nodes.getD [])).all (fun r => r.required_ok) &&
          (Tycoon.dvalues (data.edges.getD [])).all (fun r => r.required_ok))) :=
  ⟨Entities.entities_from_dict_isSome, Systems.systems_from_dict_isSome⟩

/-- C10: a node id equal to the empty string is never produced by
`get_neighbors` (the truthiness test `if other:` drops it), hence it never
occurs in a `find_path` result except as the path's start (which forces the
query's source to be ""); a search for "" from any other node returns
`none`, and `find_path "" ""` returns `[""]` when "" is a node.  In the
systems variant no neighbour node with id "" is ever returned either. -/
theorem claim10_empty_string_node {α : Type} :
    (∀ (m : Entities.WorldMap α) (n : String),
      "" ∉ (m.get_neighbors n).map Prod.fst) ∧
    (∀ (m : Entities.WorldMap α) (a b : String) (p : List String),
      m.find_path a b = some p → "" ∈ p → a = "" ∧ p.head? = some "") ∧
    (∀ (m : Entities.WorldMap α) (a : String), a ≠ "" → m.find_path a "" = none) ∧
    (∀ (m : Entities.WorldMap α), Tycoon.dmem m.nodes "" = true →
      m.find_path "" "" = some [""]) ∧
    (∀ (m : Systems.WorldMap α), (∀ q ∈ m.nodes, q.2.id = q.1) →
      ∀ n, ∀ nd ∈ m.get_neighbors n, nd.id ≠ "") := by
  refine ⟨?_, ?_, ?_, ?_, ?_⟩
  · intro m n h
    exact Entities.get_neighbors_ne_empty m n "" h rfl
  · intro m a b p hp hmem
    have hg := Entities.find_path_sound hp
    rcases Entities.chain_mem_head_or_step p "" hg.2.2.1 hmem with h | ⟨w, hw⟩
    · have ha : a = "" := Option.some_injective _ (hg.1.symm.trans h)
      exact ⟨ha, h⟩
    · exact absurd rfl (Entities.nbr_ne_empty hw)
  · intro m a ha
    cases hda : Tycoon.dmem m.nodes a with
    | false => exact Entities.find_path_absent (Or.inl hda)
    | true =>
      cases hdb : Tycoon.dmem m.nodes "" with
      | false => exact Entities.find_path_absent (Or.inr hdb)
      | true =>
        rw [Entities.find_path_none_iff hda hdb]
        rintro ⟨n, hst⟩
        exact Entities.nsteps_to_empty n a ha hst
  · intro m h
    exact Entities.find_path_refl h
  · intro m hco n nd hnd
    unfold Systems.WorldMap.get_neighbors at hnd
    rcases List.mem_filterMap.mp hnd with ⟨e, he, hres⟩
    cases hother : e.get_other_node n with
    | none => rw [hother] at hres; cases hres
    | some other =>
      rw [hother] at hres
      by_cases hemp : other = ""
      · simp [hemp] at hres
      · simp only [hemp, if_false] at hres
        have hres' : Tycoon.dget m.nodes other = some nd := by
          simpa [hemp] using hres
        have hmem := Tycoon.dget_mem hres'
        have := hco (other, nd) hmem
        rw [this]
        exact hemp

theorem claim10_witness :
    ("" ∉ (C10Map.get_neighbors "a").map Prod.fst) ∧
    C10Map.find_path "a" "" = none ∧
    C10Map.find_path "" "" = some [""] :=
  ⟨(claim10_empty_string_node (α := String)).1 C10Map "a",
   (claim10_empty_string_node (α := String)).2.2.1 C10Map "a" (by decide),
   (claim10_empty_string_node (α := String)).2.2.2.1 C10Map (by decide)⟩
